import Mathlib

/-!
A shallow embedding of the shared-log core of the node-replication library
(`src/log.rs`, `src/replica.rs`) together with a spec-level model of the
per-thread context ring (`context.rs`, whose file is absent from the sources;
only its callers and the CNR variant `cnr/context.rs` are present).

The embedding is sequential: atomic loads/stores and compare-and-swap
operations are collapsed to plain state reads and writes (a CAS executed
without interference always succeeds), and a loop that can only terminate if
a *different* thread makes progress is modelled as returning `none`
("blocked").  A Rust `panic!` is modelled as a distinguished error value.
All machine integers (`usize`) are modelled as `Nat`; the counters involved
(`head`, `tail`, `ctail`, `ltails`, `next`) are monotone and bounded by the
number of operations ever appended, so 64-bit overflow is unreachable and is
not modelled.
-/

namespace NodeReplication

/-- `MAX_THREADS_PER_REPLICA` from `replica.rs`. -/
def MAX_THREADS_PER_REPLICA : Nat := 256

/-- Modelled from the spec: `MAX_PENDING_OPS`, the per-thread context batch
size, lives in `context.rs`, which is missing from the sources (only its
callers are present).  The spec fixes it to a small power of two, e.g. 32,
which is also the value required by `GC_FROM_HEAD`'s power-of-two
compile-time assertion in `log.rs`. -/
def MAX_PENDING_OPS : Nat := 32

/-- `MAX_REPLICAS` from `log.rs`: the maximum number of replicas usable
against the log. -/
def MAX_REPLICAS : Nat := 192

/-- `GC_FROM_HEAD` from `log.rs` (the spec's `GC_HORIZON`). -/
def GC_FROM_HEAD : Nat := MAX_PENDING_OPS * MAX_THREADS_PER_REPLICA

/-- An entry of the shared log (`Entry<T>` in `log.rs`). -/
structure Entry (α : Type) where
  operation : Option α
  replica : Nat
  alivef : Bool
  deriving Repr, DecidableEq

/-- The shared log (`Log<'a, T>` in `log.rs`).  The slice of entries is
modelled as a total function from physical slot numbers; only slots
`< size` are meaningful.  `ltails` and `lmasks` are indexed by
`replica_id - 1`, as in the source. -/
structure Log (α : Type) where
  size : Nat
  head : Nat
  tail : Nat
  ctail : Nat
  ltails : Nat → Nat
  next : Nat
  lmasks : Nat → Bool
  slog : Nat → Entry α

/-- `Log::index`: physical slot of a logical index. -/
def Log.index (l : Log α) (logical : Nat) : Nat :=
  logical &&& (l.size - 1)

/-- Rust's `usize::is_power_of_two`. -/
def isPowerOfTwoB (n : Nat) : Bool :=
  n == 2 ^ Nat.log2 n

/-- Rust's `usize::checked_next_power_of_two` (the smallest power of two
`≥ n`).  The `None`-on-overflow case needs a log of more than `2^63`
entries and is unreachable from a byte count, so it is not modelled. -/
def checkedNextPowerOfTwo (n : Nat) : Nat :=
  2 ^ Nat.clog 2 n

/-- The entry-count computation of `Log::new`: divide the byte budget by the
entry size, force at least `2 * GC_FROM_HEAD` entries, and round up to a
power of two. -/
def logCapacity (bytes entrySize : Nat) : Nat :=
  let num0 := bytes / entrySize
  let num1 := if num0 < 2 * GC_FROM_HEAD then 2 * GC_FROM_HEAD else num0
  if isPowerOfTwoB num1 then num1 else checkedNextPowerOfTwo num1

/-- `Log::new`.  `entrySize` stands for `Log::entry_size()`, which is a
compile-time memory-layout constant (64 bytes for small `T`). -/
def Log.new (α : Type) (bytes entrySize : Nat) : Log α :=
  { size := logCapacity bytes entrySize
    head := 0
    tail := 0
    ctail := 0
    ltails := fun _ => 0
    next := 1
    lmasks := fun _ => true
    slog := fun _ => { operation := none, replica := 0, alivef := false } }

/-- `Log::register`.  Sequentially the CAS on `next` always succeeds, so the
retry loop collapses to a single test-and-increment. -/
def Log.register (l : Log α) : Option (Log α × Nat) :=
  if MAX_REPLICAS ≤ l.next then none
  else some ({ l with next := l.next + 1 }, l.next)

/-- `k` successive calls to `Log::register`, collecting the ids handed out.
Registration stops at the first failure. -/
def Log.registerN : Log α → Nat → Log α × List Nat
  | l, 0 => (l, [])
  | l, k + 1 =>
    match l.register with
    | none => (l, [])
    | some (l', n) =>
      let r := l'.registerN k
      (r.1, n :: r.2)

/-- The body of `append`'s fill loop for one entry: write `op` at logical
index `eidx`, tagged with replica `idx`, choosing the alive mask exactly as
the source does (start from `lmasks[idx - 1]` and flip it if the slot's
current mask already equals it). -/
def Log.writeEntry (l : Log α) (idx eidx : Nat) (op : α) : Log α :=
  { l with
      slog := Function.update l.slog (l.index eidx)
        { operation := some op
          replica := idx
          alivef :=
            if (l.slog (l.index eidx)).alivef == l.lmasks (idx - 1) then
              !(l.lmasks (idx - 1))
            else l.lmasks (idx - 1) } }

/-- `append`'s fill loop: write `ops` at logical indices `t, t+1, …`. -/
def Log.appendEntriesFrom (l : Log α) (idx : Nat) : List α → Nat → Log α
  | [], _ => l
  | op :: rest, t => (l.writeEntry idx t op).appendEntriesFrom idx rest (t + 1)

/-- The minimum local tail scanned by `advance_head`: the running minimum of
`ltails[0]` and `ltails[idx - 1]` for `idx ∈ [1, next)`, exactly as the
source's loop computes it. -/
def Log.minLtail (l : Log α) : Nat :=
  (List.range' 1 (l.next - 1)).foldl (fun m i => Nat.min m (l.ltails (i - 1))) (l.ltails 0)

/-- `Log::advance_head`, sequentially.  If the minimum local tail equals the
head no other thread can move it for us, so the call spins forever
(`none`).  Otherwise the head is published; if that freed enough space the
call returns, and otherwise the next iteration finds `min_local_tail =
head` and spins forever. -/
def Log.advanceHead (l : Log α) : Option (Log α) :=
  if l.minLtail == l.head then none
  else if l.tail < l.minLtail + l.size - GC_FROM_HEAD then some { l with head := l.minLtail }
  else none

/-- `Log::append`, sequentially: the CAS on `tail` always succeeds, so the
retry loop runs once; waiting for GC (`wait_gc`) cannot be resolved by the
caller itself and is modelled as `none`.  Returns the updated log and the
logical index of the first reserved slot. -/
def Log.append (l : Log α) (ops : List α) (idx : Nat) : Option (Log α × Nat) :=
  let nops := ops.length
  let t := l.tail
  let h := l.head
  if h + l.size - GC_FROM_HEAD < t then none
  else
    let l1 : Log α := { l with tail := t + nops }
    let l2 := l1.appendEntriesFrom idx ops t
    let entry := if nops == 0 then 0 else t
    if h + l.size - GC_FROM_HEAD < t + nops then
      (l2.advanceHead).map (fun lf => (lf, entry))
    else some (l2, entry)

/-- How a call to `exec`/`exec_to` can fail to return: by hitting the
`panic!` guard, or by spinning forever on an entry whose alive bit never
matches (sequentially nobody else can set it). -/
inductive ExecErr where
  | panicked
  | blocked
  deriving Repr, DecidableEq

/-- The replay loop of `exec_to`: execute `n` entries starting at logical
index `i` on behalf of replica slot `my`, collecting the `(op, replica)`
pairs passed to the dispatch closure and flipping `lmasks[my]` at each wrap
boundary. -/
def Log.execLoop (my : Nat) : Log α → Nat → Nat → Option (Log α × List (α × Nat))
  | l, _, 0 => some (l, [])
  | l, i, n + 1 =>
    if (l.slog (l.index i)).alivef != l.lmasks my then none
    else
      match
        Log.execLoop my
          (if l.index i == l.size - 1 then
            { l with lmasks := Function.update l.lmasks my (!(l.lmasks my)) }
          else l)
          (i + 1) n
      with
      | none => none
      | some (lf, ds) =>
        some (lf,
          (match (l.slog (l.index i)).operation with
            | some o => [(o, (l.slog (l.index i)).replica)]
            | none => []) ++ ds)

/-- `Log::exec_to`: replay entries `[ltails[idx-1], toentry)` for replica
`idx`.  Mirrors the source's guard structure: the `l == toentry` early
return comes *before* the bounds check, and `toentry ≤ tail` is never
checked. -/
def Log.execTo (l : Log α) (idx toentry : Nat) : Except ExecErr (Log α × List (α × Nat)) :=
  if l.ltails (idx - 1) == toentry then .ok (l, [])
  else if toentry < l.ltails (idx - 1) ∨ l.ltails (idx - 1) < l.head then .error .panicked
  else
    match Log.execLoop (idx - 1) l (l.ltails (idx - 1)) (toentry - l.ltails (idx - 1)) with
    | none => .error .blocked
    | some (lf, ds) =>
      .ok ({ lf with
              ctail := Nat.max lf.ctail toentry
              ltails := Function.update lf.ltails (idx - 1) toentry }, ds)

/-- `Log::exec`: replay up to the current tail. -/
def Log.exec (l : Log α) (idx : Nat) : Except ExecErr (Log α × List (α × Nat)) :=
  l.execTo idx l.tail

/-- `Log::reset`: zero `head` and `tail`, restore `next`, zero every
per-replica local tail, restore every alive-mask, and clear the alive bit
of every slot.  Note that the source never touches `ctail`. -/
def Log.reset (l : Log α) : Log α :=
  { l with
      head := 0
      tail := 0
      next := 1
      ltails := fun r => if r < MAX_REPLICAS then 0 else l.ltails r
      lmasks := fun r => if r < MAX_REPLICAS then true else l.lmasks r
      slog := fun p => if p < l.size then { l.slog p with alivef := false } else l.slog p }

/-- `true` iff a replay call returned normally. -/
def isOkB : Except ExecErr (Log α × List (α × Nat)) → Bool
  | .ok _ => true
  | .error _ => false

/-- Predicate transformer for replay results: holds trivially when the call
did not return (panicked or blocked), and asserts `P` of the result when it
returned normally. -/
def ExecOk (r : Except ExecErr (Log α × List (α × Nat)))
    (P : Log α × List (α × Nat) → Prop) : Prop :=
  match r with
  | .ok p => P p
  | .error _ => True

/-- A concrete fresh log with the same state as `Log.new α 0 64`
(capacity `2 * GC_FROM_HEAD = 16384` entries), spelled out so that concrete
evaluations never need to unfold `Nat.log2`/`Nat.clog`. -/
def tinyLog : Log Nat :=
  { size := 16384
    head := 0
    tail := 0
    ctail := 0
    ltails := fun _ => 0
    next := 1
    lmasks := fun _ => true
    slog := fun _ => { operation := none, replica := 0, alivef := false } }

/-- Modelled from the spec: the per-thread context ring of `context.rs`,
which is missing from the sources.  Per spec §3/§4.3 it is a bounded ring
with monotone indices `head ≤ combiner_head (comb) ≤ tail`; each slot holds
a write op (with its log-hash metadata, as in the surviving CNR variant
`cnr/context.rs`) and a companion slot holds a response.  Slots are
addressed here by their monotone logical index; the physical ring position
is `index mod MAX_PENDING_OPS` and slot reuse is invisible while the ring
invariant `tail - head ≤ MAX_PENDING_OPS` holds. -/
structure Context (α ρ : Type) where
  head : Nat
  comb : Nat
  tail : Nat
  batch : Nat → Option (α × Nat)
  resps : Nat → Option ρ

/-- Modelled from the spec: `Context::ops` (the spec's `drain_into`).
Copies the pending operations in `[comb, tail)` whose stored hash matches
`hash` out of the batch, and advances `comb` to the observed `tail`. -/
def Context.ops (c : Context α ρ) (hash : Nat) : List α × Context α ρ :=
  let drained := (List.range' c.comb (c.tail - c.comb)).filterMap fun i =>
    match c.batch i with
    | some (op, h) => if h == hash then some op else none
    | none => none
  (drained, { c with comb := c.tail })

/-- Write responses into consecutive slots starting at `start`. -/
def writeResps (f : Nat → Option ρ) : Nat → List ρ → (Nat → Option ρ)
  | _, [] => f
  | start, r :: rest => writeResps (Function.update f start (some r)) (start + 1) rest

/-- Modelled from the spec: `Context::enqueue_resps` (the spec's
`post_responses`).  Writes the responses into the slots corresponding to
the drained operations and advances `head` past them. -/
def Context.enqueueResps (c : Context α ρ) (rs : List ρ) : Context α ρ :=
  { c with resps := writeResps c.resps c.head rs, head := c.head + rs.length }

/-- An empty per-thread context. -/
def Context.empty : Context α ρ :=
  { head := 0, comb := 0, tail := 0, batch := fun _ => none, resps := fun _ => none }

/-- The replica state from `replica.rs`, restricted to a single shared log
(the combiner lock, the staging/result buffers and the inflight array are
round-local and appear as locals of `combine`).  `contexts`, `pending` are
indexed by `thread_id - 1`; `data` is the private copy of the user data
structure. -/
structure Replica (α ρ σ : Type) where
  next : Nat
  idx : List Nat
  contexts : Nat → Context α ρ
  pending : Nat → Bool
  data : σ

/-- The registration loop of `Replica::new`: register with every log in
order, `unwrap`-ping each result.  A failed registration is a panic,
modelled as `none`. -/
def Log.registerAll : List (Log α) → Option (List (Log α) × List Nat)
  | [] => some ([], [])
  | l :: ls =>
    match l.register with
    | none => none
    | some (l', n) =>
      match Log.registerAll ls with
      | none => none
      | some (ls', ids) => some (l' :: ls', n :: ids)

/-- `Replica::new`: register with every log (panicking — `none` — if any
registration fails) and build the replica with fresh contexts, no pending
flags and the default data instance `d0`. -/
def Replica.new (logs : List (Log α)) (d0 : σ) : Option (Replica α ρ σ × List (Log α)) :=
  match Log.registerAll logs with
  | none => none
  | some (logs', ids) =>
    some ({ next := 1
            idx := ids
            contexts := fun _ => Context.empty
            pending := fun _ => false
            data := d0 }, logs')

/-- The collection loop of `Replica::combine`: for each thread id in
`[1, next)` whose pending flag is set, drain its context into the staging
buffer and record the count in the inflight array (which is all zeroes at
the start of every round).  `fuel` counts the remaining thread ids. -/
def collectGo (pend : Nat → Bool) (hash : Nat) :
    (Nat → Context α ρ) → (Nat → Nat) → List α → Nat → Nat →
      ((Nat → Context α ρ) × (Nat → Nat) × List α)
  | cs, cnt, buf, _, 0 => (cs, cnt, buf)
  | cs, cnt, buf, tid, fuel + 1 =>
    if pend (tid - 1) then
      let r := (cs (tid - 1)).ops hash
      collectGo pend hash (Function.update cs (tid - 1) r.2)
        (Function.update cnt (tid - 1) r.1.length) (buf ++ r.1) (tid + 1) fuel
    else collectGo pend hash cs cnt buf (tid + 1) fuel

/-- The dispatch closure `combine` passes to `exec`: run every `(op, i)`
pair through `dispatch_mut`, pushing the response into the result buffer
when `i` is our own replica id. -/
def applyDispatches (dmut : σ → α → σ × ρ) (rid : Nat) :
    σ → List (α × Nat) → σ × List ρ
  | s, [] => (s, [])
  | s, (o, i) :: rest =>
    ((applyDispatches dmut rid (dmut s o).1 rest).1,
      (if i == rid then [(dmut s o).2] else []) ++
        (applyDispatches dmut rid (dmut s o).1 rest).2)

/-- The response-distribution loop of `Replica::combine`: walk thread ids in
ascending order, slice `inflight[tid-1]` consecutive responses out of the
result buffer and post them into the matching context, clearing the pending
flag; threads with a zero count are skipped.  A slice reaching past the end
of the result buffer is an out-of-bounds panic in the source, modelled as
`none`. -/
def distributeGo (cnt : Nat → Nat) (results : List ρ) :
    (Nat → Context α ρ) → (Nat → Bool) → Nat → Nat → Nat →
      Option ((Nat → Context α ρ) × (Nat → Bool))
  | cs, pend, _, _, 0 => some (cs, pend)
  | cs, pend, s, tid, fuel + 1 =>
    let n := cnt (tid - 1)
    if n == 0 then distributeGo cnt results cs pend s (tid + 1) fuel
    else if results.length < s + n then none
    else
      distributeGo cnt results
        (Function.update cs (tid - 1) ((cs (tid - 1)).enqueueResps ((results.drop s).take n)))
        (Function.update pend (tid - 1) false) (s + n) (tid + 1) fuel

/-- `Replica::combine` for a replica bound to a single log (`hashidx = 0`):
collect pending operations, append them to the shared log in one batch,
replay the log into the private copy (collecting responses to our own
entries), and distribute the response slices back to the contexts.
Blocking (`append`/`exec` never returning) and the out-of-bounds panic in
the distribution loop are modelled as `none`. -/
def Replica.combine (dmut : σ → α → σ × ρ) (R : Replica α ρ σ) (log : Log α) :
    Option (Replica α ρ σ × Log α) :=
  match log.append
      (collectGo R.pending 0 R.contexts (fun _ => 0) [] 1 (R.next - 1)).2.2
      (R.idx.headD 0) with
  | none => none
  | some (log1, _entry) =>
    match log1.exec (R.idx.headD 0) with
    | .error _ => none
    | .ok (log2, ds) =>
      match distributeGo
          (collectGo R.pending 0 R.contexts (fun _ => 0) [] 1 (R.next - 1)).2.1
          (applyDispatches dmut (R.idx.headD 0) R.data ds).2
          (collectGo R.pending 0 R.contexts (fun _ => 0) [] 1 (R.next - 1)).1
          R.pending 0 1 (R.next - 1) with
      | none => none
      | some (cs2, pend2) =>
        some
          ({ R with
              contexts := cs2
              pending := pend2
              data := (applyDispatches dmut (R.idx.headD 0) R.data ds).1 }, log2)

/-- Run a list of operations sequentially through `dispatch_mut` from state
`s`, returning the final state and the responses in order.  This is the
sequential reference semantics the claims compare against. -/
def runSeq (dmut : σ → α → σ × ρ) : σ → List α → σ × List ρ
  | s, [] => (s, [])
  | s, a :: rest =>
    ((runSeq dmut (dmut s a).1 rest).1, (dmut s a).2 :: (runSeq dmut (dmut s a).1 rest).2)

/-- The concatenation, in ascending thread order, of the operations the
pending contexts `[tid, tid + fuel)` would contribute to a combine round. -/
def pendingConcat (pend : Nat → Bool) (cs : Nat → Context α ρ) (hash : Nat) :
    Nat → Nat → List α
  | _, 0 => []
  | tid, fuel + 1 =>
    (if pend (tid - 1) then ((cs (tid - 1)).ops hash).1 else []) ++
      pendingConcat pend cs hash (tid + 1) fuel

/-- Sum of the inflight counts over thread ids `[tid, tid + fuel)`. -/
def sumCnt (cnt : Nat → Nat) : Nat → Nat → Nat
  | _, 0 => 0
  | tid, fuel + 1 => cnt (tid - 1) + sumCnt cnt (tid + 1) fuel

/-- The `(op, replica)` pairs the replay loop hands to the dispatch closure
for the `n` log entries starting at logical index `i`: one pair per entry
whose slot holds an operation, in log order. -/
def dsSpec (l : Log α) (i n : Nat) : List (α × Nat) :=
  (List.range' i n).filterMap fun x =>
    ((l.slog (l.index x)).operation).map fun o => (o, (l.slog (l.index x)).replica)

/-- The position at which the entry at logical index `i` is dispatched in a
replay that starts at local tail `lt`: the number of entries in `[lt, i)`
whose slot holds an operation.  Replays dispatch entries in increasing
logical-index order, so this position is monotone in `i`. -/
def dsPos (l : Log α) (lt i : Nat) : Nat :=
  ((List.range' lt (i - lt)).filter fun x => ((l.slog (l.index x)).operation).isSome).length

/-- A log state with `head = 5` and all local tails at `3`. -/
def guardLog : Log Nat := { tinyLog with head := 5, ltails := fun _ => 3 }

/-- A log holding three live entries (ops `10`, `20`, `30`, appended by
replica 1), with replica 1 yet to replay from index `0` and every other
replica already past index `1`. -/
def ordLog : Log Nat :=
  { tinyLog with
      tail := 3
      ltails := fun t => if t = 0 then 0 else 1
      slog := fun p =>
        if p < 3 then { operation := some (10 * (p + 1)), replica := 1, alivef := true }
        else { operation := none, replica := 0, alivef := false } }

/-- A fresh log holding two live entries (ops `1` and `2`, appended by
replica 1). -/
def execLog : Log Nat :=
  { tinyLog with
      tail := 2
      slog := fun p =>
        if p < 2 then { operation := some (p + 1), replica := 1, alivef := true }
        else { operation := none, replica := 0, alivef := false } }

/-- A context holding one pending operation `5` for log-hash `0`. -/
def wCtx1 : Context Nat Nat :=
  { head := 0, comb := 0, tail := 1
    batch := fun i => if i = 0 then some (5, 0) else none
    resps := fun _ => none }

/-- A context holding one pending operation `7` for log-hash `0`. -/
def wCtx2 : Context Nat Nat :=
  { head := 0, comb := 0, tail := 1
    batch := fun i => if i = 0 then some (7, 0) else none
    resps := fun _ => none }

/-- A replica with two registered threads, both with a pending operation. -/
def wReplica : Replica Nat Nat Nat :=
  { next := 3
    idx := [1]
    contexts := fun t => if t = 0 then wCtx1 else if t = 1 then wCtx2 else Context.empty
    pending := fun t => t == 0 || t == 1
    data := 0 }

/-- A dispatch function over a running-sum counter whose response is the new
sum. -/
def wDmut (s a : Nat) : Nat × Nat := (s + a, s + a)

/-! ## Basic facts about the capacity computation -/

theorem le_checkedNextPowerOfTwo (n : Nat) : n ≤ checkedNextPowerOfTwo n :=
  Nat.le_pow_clog (by norm_num) n

theorem logCapacity_spec (bytes entrySize : Nat) :
    2 * GC_FROM_HEAD ≤ logCapacity bytes entrySize ∧
      ∃ k, logCapacity bytes entrySize = 2 ^ k := by
  have hcore : ∀ n1 : Nat, 2 * GC_FROM_HEAD ≤ n1 →
      2 * GC_FROM_HEAD ≤ (if isPowerOfTwoB n1 then n1 else checkedNextPowerOfTwo n1) ∧
        ∃ k, (if isPowerOfTwoB n1 then n1 else checkedNextPowerOfTwo n1) = 2 ^ k := by
    intro n1 h1
    constructor
    · split
      · exact h1
      · exact Nat.le_trans h1 (le_checkedNextPowerOfTwo _)
    · split
      · next h => exact ⟨Nat.log2 n1, by simpa [isPowerOfTwoB] using h⟩
      · exact ⟨Nat.clog 2 n1, rfl⟩
  have hge : 2 * GC_FROM_HEAD ≤
      (if bytes / entrySize < 2 * GC_FROM_HEAD then 2 * GC_FROM_HEAD
        else bytes / entrySize) := by
    split
    · exact Nat.le_refl _
    · omega
  exact hcore _ hge

/-- C7: for every requested size in bytes, `Log::new` produces a log of at
least `2 * GC_FROM_HEAD` entries, whose capacity is a power of two, and
whose physical index function is `x &&& (capacity - 1)`. -/
theorem new_capacity (α : Type) (bytes entrySize : Nat) :
    2 * GC_FROM_HEAD ≤ (Log.new α bytes entrySize).size ∧
      (∃ k, (Log.new α bytes entrySize).size = 2 ^ k) ∧
      ∀ x, (Log.new α bytes entrySize).index x =
        x &&& ((Log.new α bytes entrySize).size - 1) :=
  ⟨(logCapacity_spec bytes entrySize).1,
   (logCapacity_spec bytes entrySize).2, fun _ => rfl⟩

/-! ## C9: `Log::reset` -/

/-- C9 (amended): `reset` zeroes `head`, `tail` and every per-replica local
tail, restores the replica counter and every alive-mask to their defaults,
and clears the alive bit of every slot — but it leaves `ctail` unchanged. -/
theorem reset_spec (l : Log α) :
    (l.reset).head = 0 ∧ (l.reset).tail = 0 ∧ (l.reset).next = 1 ∧
      (∀ r, r < MAX_REPLICAS → (l.reset).ltails r = 0 ∧ (l.reset).lmasks r = true) ∧
      (∀ p, p < l.size → ((l.reset).slog p).alivef = false) ∧
      (l.reset).ctail = l.ctail := by
  refine ⟨rfl, rfl, rfl, fun r hr => ⟨if_pos hr, if_pos hr⟩, fun p hp => ?_, rfl⟩
  simp [Log.reset, hp]

/-- Witness for C9's amended theorem at a concrete log. -/
theorem reset_spec_witness :
    (Log.reset { tinyLog with ctail := 7 }).head = 0 ∧
      (3 : Nat) < MAX_REPLICAS ∧
      (Log.reset { tinyLog with ctail := 7 }).ltails 3 = 0 ∧
      (Log.reset { tinyLog with ctail := 7 }).ctail = 7 :=
  ⟨(reset_spec _).1, by decide,
   ((reset_spec { tinyLog with ctail := 7 }).2.2.2.1 3 (by decide)).1,
   (reset_spec { tinyLog with ctail := 7 }).2.2.2.2.2⟩

/-- C9 counterexample: the claim says `reset` zeroes `ctail`; on a log whose
`ctail` is `7`, `reset` leaves it at `7`. -/
theorem reset_ctail_cex :
    (Log.reset { tinyLog with ctail := 7 }).ctail = 7 ∧ (7 : Nat) ≠ 0 :=
  ⟨rfl, by decide⟩

/-! ## C4: the guards of `exec_to` -/

/-- C4 (amended): when `ltails[idx-1] = to`, `exec_to` returns immediately
without executing anything (even if `ltails[idx-1] < head`); when
`ltails[idx-1] ≠ to` and (`ltails[idx-1] > to` or `ltails[idx-1] < head`),
it panics.  `to ≤ tail` is never checked. -/
theorem execTo_guard (l : Log α) (idx toentry : Nat) :
    (l.ltails (idx - 1) = toentry → l.execTo idx toentry = .ok (l, [])) ∧
      (l.ltails (idx - 1) ≠ toentry →
        (toentry < l.ltails (idx - 1) ∨ l.ltails (idx - 1) < l.head) →
        l.execTo idx toentry = .error .panicked) := by
  constructor
  · intro h
    simp [Log.execTo, h]
  · intro h hcond
    simp [Log.execTo, h, hcond]

/-- Witness for C4's amended theorem: with local tail `3`, head `5`, a
replay to `7` panics. -/
theorem execTo_guard_witness :
    guardLog.ltails 0 ≠ 7 ∧
      (7 < guardLog.ltails 0 ∨ guardLog.ltails 0 < guardLog.head) ∧
      guardLog.execTo 1 7 = .error .panicked :=
  ⟨by decide, by decide, (execTo_guard guardLog 1 7).2 (by decide) (by decide)⟩

/-- C4 counterexample: the claim says every call in a state with
`ltails[r] < head` terminates the process; but with local tail `3 = to` and
head `5` the call returns normally. -/
theorem execTo_guard_cex :
    guardLog.ltails 0 < guardLog.head ∧ isOkB (guardLog.execTo 1 3) = true :=
  ⟨by decide, by decide⟩

/-! ## C6: `Log::register` -/

theorem register_eq_none_iff (l : Log α) :
    l.register = none ↔ MAX_REPLICAS ≤ l.next := by
  unfold Log.register
  split
  · next hc => simpa using hc
  · next hc => simpa using hc

theorem registerN_spec (l : Log α) (k : Nat) (h : l.next + k ≤ MAX_REPLICAS) :
    l.registerN k = ({ l with next := l.next + k }, List.range' l.next k) := by
  induction k generalizing l with
  | zero =>
    cases l
    simp [Log.registerN]
  | succ k ih =>
    have hreg : l.register = some ({ l with next := l.next + 1 }, l.next) := by
      unfold Log.register
      rw [if_neg (by omega)]
    have hih := ih { l with next := l.next + 1 } (by simpa using by omega)
    simp only [Log.registerN, hreg, hih]
    have h1 : l.next + 1 + k = l.next + (k + 1) := by omega
    rw [h1, List.range'_succ]

/-- C6 (amended): on a fresh log, the first `k ≤ MAX_REPLICAS - 1` calls to
`register` return the distinct ids `1, 2, …, k`, all within
`[1, MAX_REPLICAS - 1]`, each incrementing the replica counter; afterwards
`register` fails exactly when the counter has reached `MAX_REPLICAS`, so id
`MAX_REPLICAS` itself is never handed out. -/
theorem register_sequence (l : Log α) (k : Nat) (hnext : l.next = 1)
    (hk : k ≤ MAX_REPLICAS - 1) :
    (l.registerN k).2 = List.range' 1 k ∧
      (l.registerN k).1.next = 1 + k ∧
      (∀ i ∈ (l.registerN k).2, 1 ≤ i ∧ i ≤ MAX_REPLICAS - 1) ∧
      ((l.registerN k).1.register = none ↔ MAX_REPLICAS ≤ 1 + k) := by
  have hM : MAX_REPLICAS = 192 := rfl
  have h := registerN_spec l k (by omega)
  rw [h, hnext]
  refine ⟨rfl, rfl, fun i hi => ?_, ?_⟩
  · obtain ⟨j, hj, rfl⟩ := List.mem_range'.1 hi
    omega
  · rw [register_eq_none_iff]

/-- Witness for C6's amended theorem: the first three registrations on a
fresh log hand out ids `[1, 2, 3]`. -/
theorem register_sequence_witness :
    tinyLog.next = 1 ∧ (3 : Nat) ≤ MAX_REPLICAS - 1 ∧
      (tinyLog.registerN 3).2 = List.range' 1 3 :=
  ⟨rfl, by decide, (register_sequence tinyLog 3 rfl (by decide)).1⟩

/-- C6 counterexample: after 191 successful registrations on a fresh log a
further call fails, yet the id `MAX_REPLICAS = 192` was never handed out —
refuting the claim that id `MAX_REPLICAS` is handed out before any call
fails. -/
theorem register_saturation_cex :
    (tinyLog.registerN 191).1.register = none ∧
      ((tinyLog.registerN 191).2.contains 192) = false := by
  have h := registerN_spec tinyLog 191 (by decide)
  rw [h]
  constructor
  · rw [register_eq_none_iff]
    decide
  · decide

/-! ## C3: the garbage-collection invariant of `append` -/

theorem append_eq (l : Log α) (ops : List α) (idx : Nat) :
    l.append ops idx =
      if l.head + l.size - GC_FROM_HEAD < l.tail then none
      else if l.head + l.size - GC_FROM_HEAD < l.tail + ops.length then
        (({ l with tail := l.tail + ops.length } : Log α).appendEntriesFrom idx ops
            l.tail).advanceHead.map
          (fun lf => (lf, if ops.length == 0 then 0 else l.tail))
      else
        some (({ l with tail := l.tail + ops.length } : Log α).appendEntriesFrom idx ops l.tail,
          if ops.length == 0 then 0 else l.tail) := rfl

theorem writeEntry_fields (l : Log α) (idx eidx : Nat) (op : α) :
    (l.writeEntry idx eidx op).size = l.size ∧
      (l.writeEntry idx eidx op).head = l.head ∧
      (l.writeEntry idx eidx op).tail = l.tail ∧
      (l.writeEntry idx eidx op).ctail = l.ctail ∧
      (l.writeEntry idx eidx op).ltails = l.ltails ∧
      (l.writeEntry idx eidx op).next = l.next ∧
      (l.writeEntry idx eidx op).lmasks = l.lmasks :=
  ⟨rfl, rfl, rfl, rfl, rfl, rfl, rfl⟩

theorem appendEntriesFrom_fields (idx : Nat) :
    ∀ (ops : List α) (t : Nat) (l : Log α),
      (l.appendEntriesFrom idx ops t).size = l.size ∧
        (l.appendEntriesFrom idx ops t).head = l.head ∧
        (l.appendEntriesFrom idx ops t).tail = l.tail ∧
        (l.appendEntriesFrom idx ops t).ctail = l.ctail ∧
        (l.appendEntriesFrom idx ops t).ltails = l.ltails ∧
        (l.appendEntriesFrom idx ops t).next = l.next ∧
        (l.appendEntriesFrom idx ops t).lmasks = l.lmasks
  | [], _, _ => ⟨rfl, rfl, rfl, rfl, rfl, rfl, rfl⟩
  | op :: rest, t, l => by
    have h := appendEntriesFrom_fields idx rest (t + 1) (l.writeEntry idx t op)
    simpa [Log.appendEntriesFrom] using h

theorem appendEntriesFrom_minLtail (idx : Nat) (ops : List α) (t : Nat) (l : Log α) :
    (l.appendEntriesFrom idx ops t).minLtail = l.minLtail := by
  have h := appendEntriesFrom_fields idx ops t l
  unfold Log.minLtail
  rw [h.2.2.2.2.1, h.2.2.2.2.2.1]

theorem advanceHead_spec (l lf : Log α) (h : l.advanceHead = some lf) :
    lf.head = l.minLtail ∧ l.minLtail ≠ l.head ∧ lf.tail = l.tail ∧
      lf.size = l.size ∧ l.tail < l.minLtail + l.size - GC_FROM_HEAD := by
  unfold Log.advanceHead at h
  split at h
  · exact absurd h (by simp)
  · next hne =>
    split at h
    · next hlt =>
      obtain rfl : ({ l with head := l.minLtail } : Log α) = lf := by
        simpa using h
      exact ⟨rfl, by simpa using hne, rfl, rfl, hlt⟩
    · exact absurd h (by simp)

/-- C3: every `append` call that completes leaves
`tail - head ≤ capacity - GC_FROM_HEAD`; and whenever the reservation
would leave less than `GC_FROM_HEAD` free entries, the head was advanced
(to the minimum local tail, which must have been ahead of the old head)
before returning. -/
theorem append_complete_gc (l : Log α) (ops : List α) (idx : Nat)
    (hWF : GC_FROM_HEAD ≤ l.size) :
    (l.append ops idx).elim True fun p =>
      p.1.tail - p.1.head ≤ l.size - GC_FROM_HEAD ∧
        p.1.tail = l.tail + ops.length ∧ p.1.size = l.size ∧
        (l.head + l.size - GC_FROM_HEAD < l.tail + ops.length →
          p.1.head = l.minLtail ∧ l.minLtail ≠ l.head) := by
  rw [append_eq]
  split
  · exact trivial
  · next hblock =>
    set l2 := ({ l with tail := l.tail + ops.length } : Log α).appendEntriesFrom idx ops
      l.tail with hl2
    have hf := appendEntriesFrom_fields idx ops l.tail
      ({ l with tail := l.tail + ops.length } : Log α)
    rw [← hl2] at hf
    have hm : l2.minLtail = l.minLtail := by
      rw [hl2, appendEntriesFrom_minLtail]
      unfold Log.minLtail
      rfl
    have h2size : l2.size = l.size := by simpa using hf.1
    have h2head : l2.head = l.head := by simpa using hf.2.1
    have h2tail : l2.tail = l.tail + ops.length := by simpa using hf.2.2.1
    split
    · next hadv =>
      cases hA : l2.advanceHead with
      | none => exact trivial
      | some lf =>
        obtain ⟨hh, hne, ht, hs, hlt⟩ := advanceHead_spec l2 lf hA
        have htail : lf.tail = l.tail + ops.length := by rw [ht, h2tail]
        have hsize : lf.size = l.size := by rw [hs, h2size]
        have hne' : l.minLtail ≠ l.head := by
          rw [← hm, ← h2head]
          exact hne
        refine ⟨?_, htail, hsize, fun _ => ⟨by rw [hh, hm], hne'⟩⟩
        have hlt' : l.tail + ops.length < l.minLtail + l.size - GC_FROM_HEAD := by
          rw [h2tail, hm, h2size] at hlt
          exact hlt
        rw [htail, hh, hm]
        omega
    · next hadv =>
      refine ⟨?_, h2tail, h2size, fun hc => absurd hc hadv⟩
      rw [h2tail, h2head]
      omega

/-- Witness for C3 at a concrete input: a one-element append on a fresh
log. -/
theorem append_complete_gc_witness :
    GC_FROM_HEAD ≤ tinyLog.size ∧
      ((tinyLog.append [5] 1).elim True fun p =>
        p.1.tail - p.1.head ≤ tinyLog.size - GC_FROM_HEAD ∧
          p.1.tail = tinyLog.tail + [5].length ∧ p.1.size = tinyLog.size ∧
          (tinyLog.head + tinyLog.size - GC_FROM_HEAD < tinyLog.tail + [5].length →
            p.1.head = tinyLog.minLtail ∧ tinyLog.minLtail ≠ tinyLog.head)) :=
  ⟨by decide, append_complete_gc tinyLog [5] 1 (by decide)⟩

/-! ## The replay loop -/

theorem index_eq_self (l : Log α) (k : Nat) (hsz : l.size = 2 ^ k) {x : Nat}
    (hx : x < l.size) : l.index x = x := by
  unfold Log.index
  rw [hsz, Nat.and_pow_two_sub_one_eq_mod]
  exact Nat.mod_eq_of_lt (hsz ▸ hx)

theorem dsSpec_congr (l l2 : Log α) (hslog : l2.slog = l.slog)
    (hsize : l2.size = l.size) (i n : Nat) : dsSpec l2 i n = dsSpec l i n := by
  unfold dsSpec Log.index
  rw [hslog, hsize]

theorem dsSpec_zero (l : Log α) (i : Nat) : dsSpec l i 0 = [] := by
  simp [dsSpec]

theorem dsSpec_succ (l : Log α) (i n : Nat) :
    dsSpec l i (n + 1) =
      (match (l.slog (l.index i)).operation with
        | some o => [(o, (l.slog (l.index i)).replica)]
        | none => []) ++ dsSpec l (i + 1) n := by
  unfold dsSpec
  rw [List.range'_succ, List.filterMap_cons]
  cases hop : (l.slog (l.index i)).operation <;> simp [hop]

theorem execLoop_ok (my : Nat) :
    ∀ (n i : Nat) (l lf : Log α) (ds : List (α × Nat)),
      Log.execLoop my l i n = some (lf, ds) →
      lf.slog = l.slog ∧ lf.size = l.size ∧ lf.head = l.head ∧ lf.tail = l.tail ∧
        lf.ctail = l.ctail ∧ lf.ltails = l.ltails ∧ lf.next = l.next ∧
        ds = dsSpec l i n := by
  intro n
  induction n with
  | zero =>
    intro i l lf ds h
    simp only [Log.execLoop, Option.some.injEq, Prod.mk.injEq] at h
    obtain ⟨rfl, rfl⟩ := h
    exact ⟨rfl, rfl, rfl, rfl, rfl, rfl, rfl, (dsSpec_zero l i).symm⟩
  | succ n ih =>
    intro i l lf ds h
    simp only [Log.execLoop] at h
    split at h
    · exact absurd h (by simp)
    · next halive =>
      split at h
      · exact absurd h (by simp)
      · next lf' ds' heq =>
        simp only [Option.some.injEq, Prod.mk.injEq] at h
        obtain ⟨rfl, rfl⟩ := h
        have hfields :
            (if l.index i == l.size - 1 then
              ({ l with lmasks := Function.update l.lmasks my (!(l.lmasks my)) } : Log α)
            else l).slog = l.slog ∧
            (if l.index i == l.size - 1 then
              ({ l with lmasks := Function.update l.lmasks my (!(l.lmasks my)) } : Log α)
            else l).size = l.size ∧
            (if l.index i == l.size - 1 then
              ({ l with lmasks := Function.update l.lmasks my (!(l.lmasks my)) } : Log α)
            else l).head = l.head ∧
            (if l.index i == l.size - 1 then
              ({ l with lmasks := Function.update l.lmasks my (!(l.lmasks my)) } : Log α)
            else l).tail = l.tail ∧
            (if l.index i == l.size - 1 then
              ({ l with lmasks := Function.update l.lmasks my (!(l.lmasks my)) } : Log α)
            else l).ctail = l.ctail ∧
            (if l.index i == l.size - 1 then
              ({ l with lmasks := Function.update l.lmasks my (!(l.lmasks my)) } : Log α)
            else l).ltails = l.ltails ∧
            (if l.index i == l.size - 1 then
              ({ l with lmasks := Function.update l.lmasks my (!(l.lmasks my)) } : Log α)
            else l).next = l.next := by
          split <;> exact ⟨rfl, rfl, rfl, rfl, rfl, rfl, rfl⟩
        obtain ⟨h1, h2, h3, h4, h5, h6, h7⟩ := hfields
        obtain ⟨g1, g2, g3, g4, g5, g6, g7, g8⟩ := ih _ _ _ _ heq
        refine ⟨g1.trans h1, g2.trans h2, g3.trans h3, g4.trans h4, g5.trans h5,
          g6.trans h6, g7.trans h7, ?_⟩
        rw [dsSpec_succ l i n, g8, dsSpec_congr l _ h1 h2]

theorem execLoop_run (my : Nat) :
    ∀ (n i : Nat) (l : Log α),
      (∀ j, j < n → (l.slog (l.index (i + j))).alivef = l.lmasks my) →
      (∀ j, j < n → l.index (i + j) ≠ l.size - 1) →
      Log.execLoop my l i n = some (l, dsSpec l i n) := by
  intro n
  induction n with
  | zero =>
    intro i l _ _
    rw [dsSpec_zero]
    rfl
  | succ n ih =>
    intro i l halive hnw
    have h0 := halive 0 (Nat.succ_pos n)
    rw [Nat.add_zero] at h0
    have hnw0 := hnw 0 (Nat.succ_pos n)
    rw [Nat.add_zero] at hnw0
    have hcond : ((l.slog (l.index i)).alivef != l.lmasks my) = false := by
      simp [h0]
    have hif :
        (if l.index i == l.size - 1 then
          ({ l with lmasks := Function.update l.lmasks my (!(l.lmasks my)) } : Log α)
        else l) = l := by
      rw [if_neg (by simpa using hnw0)]
    have hrec := ih (i + 1) l
      (fun j hj => by
        have := halive (j + 1) (by omega)
        rwa [show i + (j + 1) = i + 1 + j by omega] at this)
      (fun j hj => by
        have := hnw (j + 1) (by omega)
        rwa [show i + (j + 1) = i + 1 + j by omega] at this)
    simp only [Log.execLoop, hcond, Bool.false_eq_true, if_false, hif, hrec]
    rw [dsSpec_succ]

theorem execTo_ok_cases (l : Log α) (idx toentry : Nat) (p : Log α × List (α × Nat))
    (h : l.execTo idx toentry = .ok p) :
    (l.ltails (idx - 1) = toentry ∧ p = (l, [])) ∨
      (l.ltails (idx - 1) ≠ toentry ∧
        ¬(toentry < l.ltails (idx - 1) ∨ l.ltails (idx - 1) < l.head) ∧
        ∃ lf, Log.execLoop (idx - 1) l (l.ltails (idx - 1))
            (toentry - l.ltails (idx - 1)) = some (lf, p.2) ∧
          p.1 = { lf with
                    ctail := Nat.max lf.ctail toentry
                    ltails := Function.update lf.ltails (idx - 1) toentry }) := by
  unfold Log.execTo at h
  split at h
  · next hc =>
    left
    simp only [Except.ok.injEq] at h
    exact ⟨by simpa using hc, h.symm⟩
  · next hc =>
    split at h
    · exact absurd h (by simp)
    · next hguard =>
      right
      refine ⟨by simpa using hc, hguard, ?_⟩
      split at h
      · exact absurd h (by simp)
      · next lf ds heq =>
        simp only [Except.ok.injEq] at h
        exact ⟨lf, by rw [← h]; exact heq, by rw [← h]⟩

theorem execTo_ok_ds (l : Log α) (idx toentry : Nat) (p : Log α × List (α × Nat))
    (h : l.execTo idx toentry = .ok p) :
    p.2 = dsSpec l (l.ltails (idx - 1)) (toentry - l.ltails (idx - 1)) := by
  rcases execTo_ok_cases l idx toentry p h with ⟨hlt, rfl⟩ | ⟨_, _, lf, heq, _⟩
  · rw [hlt, Nat.sub_self, dsSpec_zero]
  · exact ((execLoop_ok (idx - 1) _ _ l lf p.2 heq).2.2.2.2.2.2.2)

theorem filterMap_full_length (f : β → Option γ) :
    ∀ xs : List β, (∀ x ∈ xs, (f x).isSome = true) →
      (xs.filterMap f).length = xs.length
  | [], _ => rfl
  | x :: xs, h => by
    obtain ⟨b, hb⟩ := Option.isSome_iff_exists.1 (h x (List.mem_cons_self x xs))
    rw [List.filterMap_cons, hb]
    simp only [List.length_cons]
    rw [filterMap_full_length f xs fun y hy => h y (List.mem_cons_of_mem x hy)]

/-! ## C5: the postcondition of `exec_to` -/

/-- C5: every `exec_to(idx, toentry)` call that returns normally leaves
`ltails[idx-1] = toentry` and `ctail = max(old ctail, toentry)` (the
hypothesis `ltails[idx-1] ≤ ctail` is an invariant of all reachable log
states), and the dispatch closure was invoked exactly on the entries with
logical indices in `[ltails[idx-1], toentry)`, in log order — once per
entry, provided each of those slots holds an operation (which every
`append`-built entry does). -/
theorem execTo_post (l : Log α) (idx toentry : Nat)
    (hInv : l.ltails (idx - 1) ≤ l.ctail) :
    ExecOk (l.execTo idx toentry) fun p =>
      p.1.ltails (idx - 1) = toentry ∧
        p.1.ctail = Nat.max l.ctail toentry ∧
        p.2 = dsSpec l (l.ltails (idx - 1)) (toentry - l.ltails (idx - 1)) ∧
        ((∀ i, i < toentry → l.ltails (idx - 1) ≤ i →
            ((l.slog (l.index i)).operation).isSome = true) →
          p.2.length = toentry - l.ltails (idx - 1)) := by
  cases hres : l.execTo idx toentry with
  | error e => exact trivial
  | ok p =>
    show _ ∧ _ ∧ _ ∧ _
    have hds := execTo_ok_ds l idx toentry p hres
    have hlen : (∀ i, i < toentry → l.ltails (idx - 1) ≤ i →
        ((l.slog (l.index i)).operation).isSome = true) →
        p.2.length = toentry - l.ltails (idx - 1) := by
      intro hsome
      rw [hds]
      unfold dsSpec
      rw [filterMap_full_length]
      · exact List.length_range' _ _ _
      · intro x hx
        obtain ⟨j, hj, rfl⟩ := List.mem_range'.1 hx
        simp only [Nat.one_mul] at *
        have h1 : l.ltails (idx - 1) ≤ l.ltails (idx - 1) + j := Nat.le_add_right _ _
        have h2 : l.ltails (idx - 1) + j < toentry := by omega
        have := hsome _ h2 h1
        simpa using this
    rcases execTo_ok_cases l idx toentry p hres with ⟨hlt, rfl⟩ | ⟨hne, hguard, lf, heq, hp1⟩
    · exact ⟨hlt, (Nat.max_eq_left (hlt ▸ hInv)).symm, hds, hlen⟩
    · obtain ⟨g1, g2, g3, g4, g5, g6, g7, g8⟩ := execLoop_ok (idx - 1) _ _ l lf p.2 heq
      refine ⟨?_, ?_, hds, hlen⟩
      · rw [hp1]
        exact Function.update_same _ _ _
      · rw [hp1]
        show Nat.max lf.ctail toentry = Nat.max l.ctail toentry
        rw [g5]

/-- Witness for C5 at a concrete input: replaying the two live entries of
`execLog`. -/
theorem execTo_post_witness :
    execLog.ltails (1 - 1) ≤ execLog.ctail ∧
      ExecOk (execLog.execTo 1 2) (fun p =>
        p.1.ltails (1 - 1) = 2 ∧
          p.1.ctail = Nat.max execLog.ctail 2 ∧
          p.2 = dsSpec execLog (execLog.ltails (1 - 1)) (2 - execLog.ltails (1 - 1)) ∧
          ((∀ i, i < 2 → execLog.ltails (1 - 1) ≤ i →
              ((execLog.slog (execLog.index i)).operation).isSome = true) →
            p.2.length = 2 - execLog.ltails (1 - 1))) :=
  ⟨by decide, execTo_post execLog 1 2 (by decide)⟩

/-! ## C2: all replicas replay the log in log-index order -/

theorem dsSpec_split (l : Log α) :
    ∀ (n1 n2 lt : Nat),
      dsSpec l lt (n1 + n2) = dsSpec l lt n1 ++ dsSpec l (lt + n1) n2 := by
  intro n1
  induction n1 with
  | zero =>
    intro n2 lt
    simp [dsSpec_zero]
  | succ n1 ih =>
    intro n2 lt
    rw [show n1 + 1 + n2 = (n1 + n2) + 1 from by omega, dsSpec_succ, ih n2 (lt + 1),
      dsSpec_succ l lt n1, show lt + (n1 + 1) = lt + 1 + n1 from by omega,
      List.append_assoc]

theorem dsSpec_length (l : Log α) :
    ∀ (m lt : Nat),
      (dsSpec l lt m).length =
        ((List.range' lt m).filter fun x => ((l.slog (l.index x)).operation).isSome).length := by
  intro m
  induction m with
  | zero =>
    intro lt
    rfl
  | succ m ih =>
    intro lt
    rw [dsSpec_succ, List.range'_succ, List.filter_cons]
    cases hop : (l.slog (l.index lt)).operation with
    | none => simp [hop, ih]
    | some o => simp [hop, ih]

theorem get?_append_cons : ∀ (l₁ : List β) (a : β) (l₂ : List β),
    (l₁ ++ a :: l₂).get? l₁.length = some a
  | [], _, _ => rfl
  | _ :: xs, a, l₂ => get?_append_cons xs a l₂

/-- Replay positions are ordered by logical log index: an entry at a
smaller index that holds an operation is dispatched strictly earlier. -/
theorem dsPos_lt (l : Log α) (lt i j : Nat) (hlti : lt ≤ i) (hij : i < j)
    (hw : ((l.slog (l.index i)).operation).isSome = true) :
    dsPos l lt i < dsPos l lt j := by
  unfold dsPos
  have h1 : (j - i) + (i - lt) = j - lt := by omega
  have h2 : lt + (i - lt) = i := by omega
  have hsplit : List.range' lt (j - lt) =
      List.range' lt (i - lt) ++ List.range' i (j - i) := by
    have hr := List.range'_append_1 lt (i - lt) (j - i)
    rw [h1, h2] at hr
    exact hr.symm
  rw [hsplit, List.filter_append, List.length_append]
  have hpos : 0 < ((List.range' i (j - i)).filter
      fun x => ((l.slog (l.index x)).operation).isSome).length := by
    rw [show j - i = (j - i - 1) + 1 from by omega, List.range'_succ, List.filter_cons]
    simp [hw]
  omega

/-- In every replay that returns, the entry at logical index `i` (holding
operation `w`) is dispatched at position `dsPos … i` of the dispatch
sequence, whatever the replica's local tail and target are, as long as the
replayed interval covers `i`. -/
theorem execTo_dispatch_at (l : Log α) (r toentry i : Nat) (w : α)
    (hi : l.ltails (r - 1) ≤ i) (hito : i < toentry)
    (hw : (l.slog (l.index i)).operation = some w)
    (p : Log α × List (α × Nat)) (h : l.execTo r toentry = .ok p) :
    p.2.get? (dsPos l (l.ltails (r - 1)) i) = some (w, (l.slog (l.index i)).replica) := by
  have hds := execTo_ok_ds l r toentry p h
  have hdecomp : toentry - l.ltails (r - 1) =
      (i - l.ltails (r - 1)) + ((toentry - i - 1) + 1) := by omega
  have hltEq : l.ltails (r - 1) + (i - l.ltails (r - 1)) = i := by omega
  rw [hds, hdecomp, dsSpec_split, hltEq, dsSpec_succ, hw]
  have hlen : (dsSpec l (l.ltails (r - 1)) (i - l.ltails (r - 1))).length =
      dsPos l (l.ltails (r - 1)) i :=
    dsSpec_length l (i - l.ltails (r - 1)) (l.ltails (r - 1))
  rw [← hlen]
  exact get?_append_cons _ _ _

/-- C2: writes are applied in log order on every replica.  For any two log
entries `i < j` holding write operations `w1` and `w2`, every replica whose
replay covers both entries — each replica with its own local tail and its
own replay target — dispatches `w1` strictly before `w2`: `w1` at position
`dsPos … i` and `w2` at position `dsPos … j > dsPos … i` of its dispatch
sequence.  In particular, if any replica's replay dispatches `w1` before
`w2`, then every other replica's replay also dispatches `w1` before
`w2`. -/
theorem replay_log_order (l : Log α) (r1 r2 to1 to2 i j : Nat) (w1 w2 : α)
    (hij : i < j)
    (hi1 : l.ltails (r1 - 1) ≤ i) (hj1 : j < to1)
    (hi2 : l.ltails (r2 - 1) ≤ i) (hj2 : j < to2)
    (hw1 : (l.slog (l.index i)).operation = some w1)
    (hw2 : (l.slog (l.index j)).operation = some w2) :
    ExecOk (l.execTo r1 to1) (fun p1 =>
      dsPos l (l.ltails (r1 - 1)) i < dsPos l (l.ltails (r1 - 1)) j ∧
        p1.2.get? (dsPos l (l.ltails (r1 - 1)) i) =
          some (w1, (l.slog (l.index i)).replica) ∧
        p1.2.get? (dsPos l (l.ltails (r1 - 1)) j) =
          some (w2, (l.slog (l.index j)).replica)) ∧
    ExecOk (l.execTo r2 to2) (fun p2 =>
      dsPos l (l.ltails (r2 - 1)) i < dsPos l (l.ltails (r2 - 1)) j ∧
        p2.2.get? (dsPos l (l.ltails (r2 - 1)) i) =
          some (w1, (l.slog (l.index i)).replica) ∧
        p2.2.get? (dsPos l (l.ltails (r2 - 1)) j) =
          some (w2, (l.slog (l.index j)).replica)) := by
  constructor
  · cases h1 : l.execTo r1 to1 with
    | error e => exact trivial
    | ok p1 =>
      exact ⟨dsPos_lt l _ i j hi1 hij (by rw [hw1]; rfl),
        execTo_dispatch_at l r1 to1 i w1 hi1 (by omega) hw1 p1 h1,
        execTo_dispatch_at l r1 to1 j w2 (by omega) hj1 hw2 p1 h1⟩
  · cases h2 : l.execTo r2 to2 with
    | error e => exact trivial
    | ok p2 =>
      exact ⟨dsPos_lt l _ i j hi2 hij (by rw [hw1]; rfl),
        execTo_dispatch_at l r2 to2 i w1 hi2 (by omega) hw1 p2 h2,
        execTo_dispatch_at l r2 to2 j w2 (by omega) hj2 hw2 p2 h2⟩

/-- Witness for C2 at a concrete input: on `ordLog`, replica 1 replays
`[0, 3)` and replica 2 replays `[1, 3)` — different intervals — and both
dispatch the write `20` (log index 1) strictly before the write `30`
(log index 2); the two `isOkB` conjuncts show both replays actually
return. -/
theorem replay_log_order_witness :
    (ordLog.slog (ordLog.index 1)).operation = some 20 ∧
      (ordLog.slog (ordLog.index 2)).operation = some 30 ∧
      ordLog.ltails (1 - 1) ≠ ordLog.ltails (2 - 1) ∧
      isOkB (ordLog.execTo 1 3) = true ∧
      isOkB (ordLog.execTo 2 3) = true ∧
      (ExecOk (ordLog.execTo 1 3) (fun p1 =>
        dsPos ordLog (ordLog.ltails (1 - 1)) 1 < dsPos ordLog (ordLog.ltails (1 - 1)) 2 ∧
          p1.2.get? (dsPos ordLog (ordLog.ltails (1 - 1)) 1) =
            some (20, (ordLog.slog (ordLog.index 1)).replica) ∧
          p1.2.get? (dsPos ordLog (ordLog.ltails (1 - 1)) 2) =
            some (30, (ordLog.slog (ordLog.index 2)).replica)) ∧
      ExecOk (ordLog.execTo 2 3) (fun p2 =>
        dsPos ordLog (ordLog.ltails (2 - 1)) 1 < dsPos ordLog (ordLog.ltails (2 - 1)) 2 ∧
          p2.2.get? (dsPos ordLog (ordLog.ltails (2 - 1)) 1) =
            some (20, (ordLog.slog (ordLog.index 1)).replica) ∧
          p2.2.get? (dsPos ordLog (ordLog.ltails (2 - 1)) 2) =
            some (30, (ordLog.slog (ordLog.index 2)).replica))) :=
  ⟨by decide, by decide, by decide, by decide, by decide,
    replay_log_order ordLog 1 2 3 3 1 2 20 30 (by decide) (by decide) (by decide)
      (by decide) (by decide) (by decide) (by decide)⟩

/-! ## Appending onto a fresh region of the log -/

theorem writeEntry_slog_of_dead (l : Log α) (idx t : Nat) (op : α) (k : Nat)
    (hsz : l.size = 2 ^ k) (ht : t < l.size)
    (hdead : (l.slog t).alivef ≠ l.lmasks (idx - 1)) :
    (l.writeEntry idx t op).slog =
      Function.update l.slog t
        { operation := some op, replica := idx, alivef := l.lmasks (idx - 1) } := by
  have hidx : l.index t = t := index_eq_self l k hsz ht
  have hcond : ((l.slog t).alivef == l.lmasks (idx - 1)) = false := by
    simpa using hdead
  unfold Log.writeEntry
  simp only [hidx, hcond, Bool.false_eq_true, if_false]

theorem appendEntriesFrom_dead (idx k : Nat) :
    ∀ (ops : List α) (t : Nat) (l : Log α),
      l.size = 2 ^ k →
      t + ops.length ≤ l.size →
      (∀ j, j < ops.length → (l.slog (t + j)).alivef ≠ l.lmasks (idx - 1)) →
      (∀ j (hj : j < ops.length),
          (l.appendEntriesFrom idx ops t).slog (t + j) =
            { operation := some (ops.get ⟨j, hj⟩), replica := idx,
              alivef := l.lmasks (idx - 1) }) ∧
        ∀ p, (p < t ∨ t + ops.length ≤ p) →
          (l.appendEntriesFrom idx ops t).slog p = l.slog p := by
  intro ops
  induction ops with
  | nil =>
    intro t l _ _ _
    exact ⟨fun j hj => absurd hj (by simp), fun p _ => rfl⟩
  | cons op rest ih =>
    intro t l hsz hbound hdead
    have hlen : (op :: rest).length = rest.length + 1 := rfl
    have ht : t < l.size := by
      rw [hlen] at hbound
      omega
    have hd0 : (l.slog t).alivef ≠ l.lmasks (idx - 1) := by
      have := hdead 0 (by simp)
      rwa [Nat.add_zero] at this
    have hw := writeEntry_slog_of_dead l idx t op k hsz ht hd0
    have hmask1 : (l.writeEntry idx t op).lmasks = l.lmasks := rfl
    have hsz1 : (l.writeEntry idx t op).size = 2 ^ k := hsz
    have hdead1 : ∀ j, j < rest.length →
        ((l.writeEntry idx t op).slog (t + 1 + j)).alivef ≠
          (l.writeEntry idx t op).lmasks (idx - 1) := by
      intro j hj
      rw [hmask1, hw, Function.update_noteq (by omega)]
      have := hdead (j + 1) (by rw [hlen]; omega)
      rwa [show t + (j + 1) = t + 1 + j by omega] at this
    obtain ⟨hin, hout⟩ := ih (t + 1) (l.writeEntry idx t op) hsz1
      (by rw [hlen] at hbound; omega) hdead1
    have hunfold : l.appendEntriesFrom idx (op :: rest) t =
        (l.writeEntry idx t op).appendEntriesFrom idx rest (t + 1) := rfl
    constructor
    · intro j hj
      cases j with
      | zero =>
        have hp : (l.appendEntriesFrom idx (op :: rest) t).slog (t + 0) =
            (l.writeEntry idx t op).slog t := by
          rw [hunfold, Nat.add_zero]
          exact hout t (Or.inl (by omega))
        rw [hp, hw, Function.update_same]
        rfl
      | succ j' =>
        have hj' : j' < rest.length := by
          rw [hlen] at hj
          omega
        have hs := hin j' hj'
        rw [hmask1] at hs
        rw [show t + (j' + 1) = t + 1 + j' by omega, hunfold, hs]
        rfl
    · intro p hp
      rw [hlen] at hp
      rw [hunfold, hout p (by omega), hw, Function.update_noteq (by omega)]

theorem dsSpec_of_written (l2 : Log α) (a : Nat) (m : Bool) :
    ∀ (ops : List α) (t : Nat),
      (∀ j (hj : j < ops.length),
          l2.slog (l2.index (t + j)) =
            { operation := some (ops.get ⟨j, hj⟩), replica := a, alivef := m }) →
      dsSpec l2 t ops.length = ops.map fun o => (o, a) := by
  intro ops
  induction ops with
  | nil =>
    intro t _
    exact dsSpec_zero l2 t
  | cons op rest ih =>
    intro t hw
    have h0 := hw 0 (by simp)
    rw [Nat.add_zero] at h0
    have hrest : ∀ j (hj : j < rest.length),
        l2.slog (l2.index (t + 1 + j)) =
          { operation := some (rest.get ⟨j, hj⟩), replica := a, alivef := m } := by
      intro j hj
      have := hw (j + 1) (by simp; omega)
      rwa [show t + (j + 1) = t + 1 + j by omega] at this
    have hih := ih (t + 1) hrest
    show dsSpec l2 t (rest.length + 1) = _
    rw [dsSpec_succ, h0, hih]
    rfl

/-- `append` onto a region of slots whose alive bits all differ from the
appender's mask, with enough room that no garbage collection is needed:
the call completes, reserves `[tail, tail + |ops|)`, publishes every
operation there with the appender's mask, and touches nothing else. -/
theorem append_fresh (l : Log α) (ops : List α) (a k : Nat)
    (hsz : l.size = 2 ^ k)
    (hGC : GC_FROM_HEAD ≤ l.size)
    (hroom : l.tail + ops.length ≤ l.head + (l.size - GC_FROM_HEAD))
    (hin : l.tail + ops.length ≤ l.size)
    (hfresh : ∀ j, j < ops.length → (l.slog (l.tail + j)).alivef ≠ l.lmasks (a - 1)) :
    ∃ l2, l.append ops a = some (l2, if ops.length == 0 then 0 else l.tail) ∧
      l2.size = l.size ∧ l2.head = l.head ∧ l2.tail = l.tail + ops.length ∧
      l2.ctail = l.ctail ∧ l2.ltails = l.ltails ∧ l2.next = l.next ∧
      l2.lmasks = l.lmasks ∧
      (∀ j (hj : j < ops.length),
          l2.slog (l.tail + j) =
            { operation := some (ops.get ⟨j, hj⟩), replica := a,
              alivef := l.lmasks (a - 1) }) ∧
      ∀ p, (p < l.tail ∨ l.tail + ops.length ≤ p) → l2.slog p = l.slog p := by
  have hl1sz : ({ l with tail := l.tail + ops.length } : Log α).size = 2 ^ k := hsz
  obtain ⟨hin2, hout2⟩ := appendEntriesFrom_dead a k ops l.tail
    ({ l with tail := l.tail + ops.length } : Log α) hl1sz hin hfresh
  have hf := appendEntriesFrom_fields a ops l.tail
    ({ l with tail := l.tail + ops.length } : Log α)
  refine ⟨({ l with tail := l.tail + ops.length } : Log α).appendEntriesFrom a ops l.tail,
    ?_, by simpa using hf.1, by simpa using hf.2.1, by simpa using hf.2.2.1,
    by simpa using hf.2.2.2.1, by simpa using hf.2.2.2.2.1,
    by simpa using hf.2.2.2.2.2.1, by simpa using hf.2.2.2.2.2.2,
    hin2, hout2⟩
  rw [append_eq, if_neg (by omega), if_neg (by omega)]

/-! ## C1: log round-trip -/

/-- C1: on a fresh log with `R` registered replicas, appending a batch of
`N ≤ capacity − GC_FROM_HEAD` operations and replaying them on any
registered replica `r` dispatches exactly that batch in order, so folding
any transition function over the dispatched operations produces the same
final state as applying the batch sequentially to a fresh instance. -/
theorem log_roundtrip (α σ : Type) (ops : List α) (l : Log α) (k a R r : Nat)
    (f : σ → α → σ) (s0 : σ)
    (hsz : l.size = 2 ^ k) (hGC : 2 * GC_FROM_HEAD ≤ l.size)
    (hhead : l.head = 0) (htail : l.tail = 0) (hnext : l.next = 1)
    (hltails : l.ltails = fun _ => 0) (hlm : l.lmasks = fun _ => true)
    (hslog : l.slog = fun _ => { operation := none, replica := 0, alivef := false })
    (hR : R ≤ MAX_REPLICAS - 1) (ha1 : 1 ≤ a) (ha2 : a ≤ R)
    (hr : r ∈ (l.registerN R).2)
    (hn : ops.length ≤ l.size - GC_FROM_HEAD) :
    ∃ l1 e, (l.registerN R).1.append ops a = some (l1, e) ∧
      ∃ l2 ds, l1.exec r = .ok (l2, ds) ∧
        ds.foldl (fun s p => f s p.1) s0 = List.foldl f s0 ops := by
  have hMR : MAX_REPLICAS = 192 := rfl
  have hGCv : GC_FROM_HEAD = 8192 := rfl
  have hreg := registerN_spec l R (by omega)
  have hlR : (l.registerN R).1 = ({ l with next := l.next + R } : Log α) := by
    rw [hreg]
  set lR := ({ l with next := l.next + R } : Log α) with hlRdef
  have hRsz : lR.size = 2 ^ k := hsz
  have hRhead : lR.head = 0 := hhead
  have hRtail : lR.tail = 0 := htail
  have hRlm : lR.lmasks = fun _ => true := hlm
  have hRslog : lR.slog = fun _ => { operation := none, replica := 0, alivef := false } :=
    hslog
  obtain ⟨l1, happ, h1sz, h1head, h1tail, h1ctail, h1ltails, h1next, h1lm, h1in, h1out⟩ :=
    append_fresh lR ops a k hRsz (by omega)
      (by rw [hRtail, hRhead]; omega)
      (by rw [hRtail, hRsz] at *; omega)
      (by
        intro j hj
        rw [hRslog, hRlm]
        simp)
  rw [hlR]
  refine ⟨l1, _, happ, ?_⟩
  -- replay on replica r
  have h1ltails' : l1.ltails = fun _ => 0 := by
    rw [h1ltails]
    exact hltails
  have h1lm' : l1.lmasks = fun _ => true := by
    rw [h1lm]
    exact hRlm
  have h1tail' : l1.tail = ops.length := by
    rw [h1tail, hRtail, Nat.zero_add]
  by_cases hlen : ops.length = 0
  · obtain rfl : ops = [] := List.length_eq_zero.1 hlen
    have hexec : l1.exec r = .ok (l1, []) := by
      unfold Log.exec Log.execTo
      rw [if_pos]
      rw [h1ltails', h1tail']
      simp
    exact ⟨l1, [], hexec, rfl⟩
  · have h1sz' : l1.size = 2 ^ k := by
      rw [h1sz]
      exact hRsz
    have hszge : 2 * GC_FROM_HEAD ≤ l1.size := by
      rw [h1sz']
      rw [hsz] at hGC
      exact hGC
    have hlt0 : l1.ltails (r - 1) = 0 := by
      rw [h1ltails']
    have hwritten : ∀ j (hj : j < ops.length),
        l1.slog (l1.index (0 + j)) =
          { operation := some (ops.get ⟨j, hj⟩), replica := a, alivef := true } := by
      intro j hj
      have hj2 : 0 + j < l1.size := by
        rw [h1sz']
        rw [hsz] at hn hGC
        omega
      rw [index_eq_self l1 k h1sz' hj2]
      have hwr := h1in j hj
      rw [hRtail] at hwr
      rw [hwr, hRlm]
    have halive : ∀ j, j < ops.length →
        (l1.slog (l1.index (0 + j))).alivef = l1.lmasks (r - 1) := by
      intro j hj
      rw [hwritten j hj, h1lm']
    have hnw : ∀ j, j < ops.length → l1.index (0 + j) ≠ l1.size - 1 := by
      intro j hj
      have hj2 : 0 + j < l1.size := by
        rw [h1sz']
        rw [hsz] at hn hGC
        omega
      rw [index_eq_self l1 k h1sz' hj2]
      rw [h1sz']
      rw [hsz] at hn hGC
      omega
    have hloop := execLoop_run (r - 1) ops.length 0 l1 halive hnw
    have hbeq : (l1.ltails (r - 1) == l1.tail) = false := by
      rw [hlt0, h1tail']
      simpa using fun h => hlen h.symm
    have hexec : l1.exec r =
        .ok ({ (l1 : Log α) with
                ctail := Nat.max l1.ctail l1.tail
                ltails := Function.update l1.ltails (r - 1) l1.tail },
          dsSpec l1 0 ops.length) := by
      unfold Log.exec Log.execTo
      rw [hbeq]
      simp only [Bool.false_eq_true, if_false]
      rw [if_neg (by
        rw [hlt0, h1head, hRhead]
        omega)]
      rw [hlt0, Nat.sub_zero, h1tail', hloop]
      simp [h1tail']
    refine ⟨_, dsSpec l1 0 ops.length, hexec, ?_⟩
    rw [dsSpec_of_written l1 a true ops 0 hwritten, List.foldl_map]

/-- Witness for C1 at a concrete input: two registered replicas, a batch of
two operations appended by replica 1 and replayed on replica 2, folded with
addition. -/
theorem log_roundtrip_witness :
    tinyLog.size = 2 ^ 14 ∧ 2 ∈ (tinyLog.registerN 2).2 ∧
      ([3, 4] : List Nat).length ≤ tinyLog.size - GC_FROM_HEAD ∧
      ∃ l1 e, (tinyLog.registerN 2).1.append [3, 4] 1 = some (l1, e) ∧
        ∃ l2 ds, l1.exec 2 = .ok (l2, ds) ∧
          ds.foldl (fun s p => Nat.add s p.1) 0 = List.foldl Nat.add 0 [3, 4] :=
  ⟨by decide, by decide, by decide,
    log_roundtrip Nat Nat [3, 4] tinyLog 14 1 2 2 Nat.add 0 (by decide) (by decide)
      rfl rfl rfl rfl rfl rfl (by decide) (by decide) (by decide) (by decide) (by decide)⟩

/-! ## C10: `Replica::new` registration -/

theorem registerAll_spec (logs : List (Log α)) :
    ((∃ lg ∈ logs, MAX_REPLICAS ≤ lg.next) → Log.registerAll logs = none) ∧
      ((∀ lg ∈ logs, lg.next < MAX_REPLICAS) →
        ∃ logs', Log.registerAll logs = some (logs', logs.map Log.next)) := by
  induction logs with
  | nil =>
    exact ⟨fun ⟨lg, h, _⟩ => absurd h (List.not_mem_nil lg), fun _ => ⟨[], rfl⟩⟩
  | cons lg ls ih =>
    constructor
    · rintro ⟨lg', hmem, hge⟩
      rcases List.mem_cons.1 hmem with rfl | hmem'
      · unfold Log.registerAll
        rw [(register_eq_none_iff lg').2 hge]
      · unfold Log.registerAll
        cases hreg : lg.register with
        | none => rfl
        | some p =>
          rw [ih.1 ⟨lg', hmem', hge⟩]
    · intro hall
      have hlt := hall lg (List.mem_cons_self lg ls)
      have hreg : lg.register = some ({ lg with next := lg.next + 1 }, lg.next) := by
        unfold Log.register
        rw [if_neg (by omega)]
      obtain ⟨ls', hls⟩ := ih.2 fun x hx => hall x (List.mem_cons_of_mem _ hx)
      refine ⟨({ lg with next := lg.next + 1 } : Log α) :: ls', ?_⟩
      unfold Log.registerAll
      rw [hreg, hls]
      rfl

/-- C10: `Replica::new` registers with every log and unwraps the result.
If any log is saturated (`next ≥ MAX_REPLICAS`, so its `register` fails)
the construction panics (modelled `none`); when every log has a free id the
construction succeeds and stores exactly the id obtained from each log's
`register()` (its current `next` counter). -/
theorem replicaNew_spec {α ρ σ : Type} (logs : List (Log α)) (d0 : σ) :
    ((∃ lg ∈ logs, MAX_REPLICAS ≤ lg.next) → Replica.new (ρ := ρ) logs d0 = none) ∧
      ((∀ lg ∈ logs, lg.next < MAX_REPLICAS) →
        ∃ R logs', Replica.new (ρ := ρ) logs d0 = some (R, logs') ∧
          R.idx = logs.map Log.next) := by
  constructor
  · intro hsat
    unfold Replica.new
    rw [(registerAll_spec logs).1 hsat]
  · intro hall
    obtain ⟨logs', hls⟩ := (registerAll_spec logs).2 hall
    refine ⟨Replica.mk 1 (logs.map Log.next) (fun _ => Context.empty)
      (fun _ => false) d0, logs', ?_, rfl⟩
    unfold Replica.new
    rw [hls]

/-- Witness for C10 at concrete inputs: one fresh log (free id available)
succeeds storing id `1`; one saturated log panics. -/
theorem replicaNew_spec_witness :
    ((∀ lg ∈ [tinyLog], lg.next < MAX_REPLICAS) ∧
        ∃ R logs', Replica.new (ρ := Nat) [tinyLog] (0 : Nat) = some (R, logs') ∧
          R.idx = [tinyLog].map Log.next) ∧
      ((∃ lg ∈ [{ tinyLog with next := MAX_REPLICAS }], MAX_REPLICAS ≤ lg.next) ∧
        Replica.new (ρ := Nat) [{ tinyLog with next := MAX_REPLICAS }] (0 : Nat) = none) :=
  ⟨⟨by decide, (replicaNew_spec [tinyLog] 0).2 (by decide)⟩,
   ⟨⟨{ tinyLog with next := MAX_REPLICAS }, List.mem_cons_self _ _, Nat.le_refl _⟩,
    (replicaNew_spec [{ tinyLog with next := MAX_REPLICAS }] 0).1
      ⟨{ tinyLog with next := MAX_REPLICAS }, List.mem_cons_self _ _, Nat.le_refl _⟩⟩⟩

/-! ## The combine round (C8) -/

theorem runSeq_length (dmut : σ → α → σ × ρ) :
    ∀ (s : σ) (xs : List α), ((runSeq dmut s xs).2).length = xs.length
  | _, [] => rfl
  | s, a :: rest => by
    simp only [runSeq, List.length_cons]
    rw [runSeq_length dmut (dmut s a).1 rest]

theorem runSeq_append (dmut : σ → α → σ × ρ) :
    ∀ (s : σ) (xs ys : List α),
      runSeq dmut s (xs ++ ys) =
        ((runSeq dmut (runSeq dmut s xs).1 ys).1,
          (runSeq dmut s xs).2 ++ (runSeq dmut (runSeq dmut s xs).1 ys).2)
  | s, [], ys => rfl
  | s, a :: xs, ys => by
    have ih := runSeq_append dmut (dmut s a).1 xs ys
    simp only [List.cons_append, runSeq, List.append_eq] at ih ⊢
    rw [ih]

theorem applyDispatches_own (dmut : σ → α → σ × ρ) (rid : Nat) :
    ∀ (s : σ) (ops : List α),
      applyDispatches dmut rid s (ops.map fun o => (o, rid)) = runSeq dmut s ops
  | _, [] => rfl
  | s, o :: rest => by
    simp only [List.map_cons, applyDispatches, runSeq, beq_self_eq_true, if_pos]
    rw [applyDispatches_own dmut rid (dmut s o).1 rest]
    rfl

theorem pendingConcat_split (pend : Nat → Bool) (base : Nat → Context α ρ) (hash : Nat) :
    ∀ (f1 f2 tid : Nat),
      pendingConcat pend base hash tid (f1 + f2) =
        pendingConcat pend base hash tid f1 ++ pendingConcat pend base hash (tid + f1) f2 := by
  intro f1
  induction f1 with
  | zero =>
    intro f2 tid
    simp [pendingConcat]
  | succ f1 ih =>
    intro f2 tid
    have h1 : f1 + 1 + f2 = (f1 + f2) + 1 := by omega
    rw [h1]
    show (if pend (tid - 1) then ((base (tid - 1)).ops hash).1 else []) ++
        pendingConcat pend base hash (tid + 1) (f1 + f2) = _
    rw [ih f2 (tid + 1)]
    show _ = ((if pend (tid - 1) then ((base (tid - 1)).ops hash).1 else []) ++
        pendingConcat pend base hash (tid + 1) f1) ++
      pendingConcat pend base hash (tid + (f1 + 1)) f2
    rw [List.append_assoc, show tid + (f1 + 1) = tid + 1 + f1 by omega]

theorem sumCnt_pendingConcat (pend : Nat → Bool) (base : Nat → Context α ρ)
    (hash : Nat) (cnt : Nat → Nat) :
    ∀ (fuel tid : Nat),
      (∀ t, tid ≤ t → t < tid + fuel →
        cnt (t - 1) = if pend (t - 1) then ((base (t - 1)).ops hash).1.length else 0) →
      sumCnt cnt tid fuel = (pendingConcat pend base hash tid fuel).length := by
  intro fuel
  induction fuel with
  | zero =>
    intro tid _
    rfl
  | succ fuel ih =>
    intro tid h
    show cnt (tid - 1) + sumCnt cnt (tid + 1) fuel = _
    rw [ih (tid + 1) fun t h1 h2 => h t (by omega) (by omega)]
    show _ = ((if pend (tid - 1) then ((base (tid - 1)).ops hash).1 else []) ++
        pendingConcat pend base hash (tid + 1) fuel).length
    rw [List.length_append, h tid (Nat.le_refl tid) (by omega)]
    split <;> simp

theorem sumCnt_ge_single (cnt : Nat → Nat) :
    ∀ (fuel tid t : Nat), tid ≤ t → t < tid + fuel → cnt (t - 1) ≤ sumCnt cnt tid fuel := by
  intro fuel
  induction fuel with
  | zero =>
    intro tid t h1 h2
    omega
  | succ fuel ih =>
    intro tid t h1 h2
    show cnt (t - 1) ≤ cnt (tid - 1) + sumCnt cnt (tid + 1) fuel
    rcases Nat.eq_or_lt_of_le h1 with rfl | hlt
    · omega
    · have := ih (tid + 1) t hlt (by omega)
      omega

theorem collectGo_spec (pend : Nat → Bool) (hash : Nat) (base : Nat → Context α ρ) :
    ∀ (fuel tid : Nat) (cs : Nat → Context α ρ) (cnt : Nat → Nat) (buf : List α),
      1 ≤ tid →
      (∀ t, tid ≤ t → t < tid + fuel → cs (t - 1) = base (t - 1)) →
      (collectGo pend hash cs cnt buf tid fuel).2.2 =
          buf ++ pendingConcat pend base hash tid fuel ∧
        (∀ t, tid ≤ t → t < tid + fuel → pend (t - 1) = true →
          (collectGo pend hash cs cnt buf tid fuel).1 (t - 1) =
              ((base (t - 1)).ops hash).2 ∧
            (collectGo pend hash cs cnt buf tid fuel).2.1 (t - 1) =
              ((base (t - 1)).ops hash).1.length) ∧
        (∀ t, tid ≤ t → t < tid + fuel → pend (t - 1) = false →
          (collectGo pend hash cs cnt buf tid fuel).1 (t - 1) = cs (t - 1) ∧
            (collectGo pend hash cs cnt buf tid fuel).2.1 (t - 1) = cnt (t - 1)) ∧
        ∀ u, (u + 1 < tid ∨ tid + fuel ≤ u + 1) →
          (collectGo pend hash cs cnt buf tid fuel).1 u = cs u ∧
            (collectGo pend hash cs cnt buf tid fuel).2.1 u = cnt u := by
  intro fuel
  induction fuel with
  | zero =>
    intro tid cs cnt buf _ _
    refine ⟨by simp [collectGo, pendingConcat], ?_, ?_, ?_⟩
    · intro t h1 h2
      omega
    · intro t h1 h2
      omega
    · intro u _
      exact ⟨rfl, rfl⟩
  | succ fuel ih =>
    intro tid cs cnt buf htid hagree
    have hbase : cs (tid - 1) = base (tid - 1) :=
      hagree tid (Nat.le_refl tid) (by omega)
    cases hp : pend (tid - 1) with
    | true =>
      have hstep : collectGo pend hash cs cnt buf tid (fuel + 1) =
          collectGo pend hash
            (Function.update cs (tid - 1) (((cs (tid - 1)).ops hash).2))
            (Function.update cnt (tid - 1) (((cs (tid - 1)).ops hash).1).length)
            (buf ++ ((cs (tid - 1)).ops hash).1) (tid + 1) fuel := by
        show (if pend (tid - 1) then _ else _) = _
        rw [hp]
        simp
      have hagree' : ∀ t, tid + 1 ≤ t → t < tid + 1 + fuel →
          Function.update cs (tid - 1) (((cs (tid - 1)).ops hash).2) (t - 1) =
            base (t - 1) := by
        intro t h1 h2
        rw [Function.update_noteq (by omega)]
        exact hagree t (by omega) (by omega)
      obtain ⟨ibuf, ipend, inonp, iout⟩ := ih (tid + 1)
        (Function.update cs (tid - 1) (((cs (tid - 1)).ops hash).2))
        (Function.update cnt (tid - 1) (((cs (tid - 1)).ops hash).1).length)
        (buf ++ ((cs (tid - 1)).ops hash).1) (by omega) hagree'
      rw [hstep]
      refine ⟨?_, ?_, ?_, ?_⟩
      · rw [ibuf, hbase]
        show _ = buf ++ ((if pend (tid - 1) then ((base (tid - 1)).ops hash).1 else []) ++
          pendingConcat pend base hash (tid + 1) fuel)
        rw [hp]
        simp [List.append_assoc]
      · intro t h1 h2 hpt
        rcases Nat.eq_or_lt_of_le h1 with rfl | hlt
        · obtain ⟨o1, o2⟩ := iout (tid - 1) (Or.inl (by omega))
          rw [o1, o2, Function.update_same, Function.update_same, hbase]
          exact ⟨rfl, rfl⟩
        · exact ipend t hlt (by omega) hpt
      · intro t h1 h2 hpt
        rcases Nat.eq_or_lt_of_le h1 with rfl | hlt
        · rw [hp] at hpt
          exact absurd hpt (by simp)
        · obtain ⟨o1, o2⟩ := inonp t hlt (by omega) hpt
          rw [o1, o2, Function.update_noteq (by omega), Function.update_noteq (by omega)]
          exact ⟨rfl, rfl⟩
      · intro u hu
        obtain ⟨o1, o2⟩ := iout u (by omega)
        rw [o1, o2, Function.update_noteq (by omega), Function.update_noteq (by omega)]
        exact ⟨rfl, rfl⟩
    | false =>
      have hstep : collectGo pend hash cs cnt buf tid (fuel + 1) =
          collectGo pend hash cs cnt buf (tid + 1) fuel := by
        show (if pend (tid - 1) then _ else _) = _
        rw [hp]
        simp
      obtain ⟨ibuf, ipend, inonp, iout⟩ := ih (tid + 1) cs cnt buf (by omega)
        fun t h1 h2 => hagree t (by omega) (by omega)
      rw [hstep]
      refine ⟨?_, ?_, ?_, ?_⟩
      · rw [ibuf]
        show _ = buf ++ ((if pend (tid - 1) then ((base (tid - 1)).ops hash).1 else []) ++
          pendingConcat pend base hash (tid + 1) fuel)
        rw [hp]
        simp
      · intro t h1 h2 hpt
        rcases Nat.eq_or_lt_of_le h1 with rfl | hlt
        · rw [hp] at hpt
          exact absurd hpt (by simp)
        · exact ipend t hlt (by omega) hpt
      · intro t h1 h2 hpt
        rcases Nat.eq_or_lt_of_le h1 with rfl | hlt
        · exact iout (tid - 1) (Or.inl (by omega))
        · exact inonp t hlt (by omega) hpt
      · intro u hu
        exact iout u (by omega)

theorem distributeGo_spec (cnt : Nat → Nat) (results : List ρ) :
    ∀ (fuel tid : Nat) (cs : Nat → Context α ρ) (pend : Nat → Bool) (s : Nat),
      1 ≤ tid →
      s + sumCnt cnt tid fuel ≤ results.length →
      ∃ csf pendf,
        distributeGo cnt results cs pend s tid fuel = some (csf, pendf) ∧
          (∀ t, tid ≤ t → t < tid + fuel → cnt (t - 1) ≠ 0 →
            csf (t - 1) = (cs (t - 1)).enqueueResps
                ((results.drop (s + sumCnt cnt tid (t - tid))).take (cnt (t - 1))) ∧
              pendf (t - 1) = false) ∧
          (∀ t, tid ≤ t → t < tid + fuel → cnt (t - 1) = 0 →
            csf (t - 1) = cs (t - 1) ∧ pendf (t - 1) = pend (t - 1)) ∧
          ∀ u, (u + 1 < tid ∨ tid + fuel ≤ u + 1) → csf u = cs u ∧ pendf u = pend u := by
  intro fuel
  induction fuel with
  | zero =>
    intro tid cs pend s _ _
    refine ⟨cs, pend, rfl, ?_, ?_, fun u _ => ⟨rfl, rfl⟩⟩
    · intro t h1 h2
      omega
    · intro t h1 h2
      omega
  | succ fuel ih =>
    intro tid cs pend s htid hsum
    have hsumval : sumCnt cnt tid (fuel + 1) = cnt (tid - 1) + sumCnt cnt (tid + 1) fuel :=
      rfl
    cases hz : cnt (tid - 1) == 0 with
    | true =>
      have hz' : cnt (tid - 1) = 0 := by simpa using hz
      have hstep : distributeGo cnt results cs pend s tid (fuel + 1) =
          distributeGo cnt results cs pend s (tid + 1) fuel := by
        show (if cnt (tid - 1) == 0 then _ else _) = _
        rw [hz]
        rfl
      obtain ⟨csf, pendf, heq, hnz, hzz, hout⟩ := ih (tid + 1) cs pend s (by omega)
        (by rw [hsumval, hz'] at hsum; omega)
      refine ⟨csf, pendf, by rw [hstep, heq], ?_, ?_, ?_⟩
      · intro t h1 h2 hne
        rcases Nat.eq_or_lt_of_le h1 with rfl | hlt
        · exact absurd hz' hne
        · obtain ⟨o1, o2⟩ := hnz t hlt (by omega) hne
          refine ⟨?_, o2⟩
          rw [o1]
          have harith : s + sumCnt cnt (tid + 1) (t - (tid + 1)) =
              s + sumCnt cnt tid (t - tid) := by
            have ht : t - tid = (t - (tid + 1)) + 1 := by omega
            rw [ht, show sumCnt cnt tid ((t - (tid + 1)) + 1) =
              cnt (tid - 1) + sumCnt cnt (tid + 1) (t - (tid + 1)) from rfl, hz']
            omega
          rw [harith]
      · intro t h1 h2 hzt
        rcases Nat.eq_or_lt_of_le h1 with rfl | hlt
        · exact hout (tid - 1) (Or.inl (by omega))
        · exact hzz t hlt (by omega) hzt
      · intro u hu
        exact hout u (by omega)
    | false =>
      have hz' : cnt (tid - 1) ≠ 0 := by simpa using hz
      have hlen : ¬results.length < s + cnt (tid - 1) := by
        rw [hsumval] at hsum
        omega
      have hstep : distributeGo cnt results cs pend s tid (fuel + 1) =
          distributeGo cnt results
            (Function.update cs (tid - 1)
              ((cs (tid - 1)).enqueueResps ((results.drop s).take (cnt (tid - 1)))))
            (Function.update pend (tid - 1) false) (s + cnt (tid - 1)) (tid + 1) fuel := by
        show (if cnt (tid - 1) == 0 then _ else _) = _
        rw [hz]
        show (if results.length < s + cnt (tid - 1) then none else _) = _
        rw [if_neg hlen]
      obtain ⟨csf, pendf, heq, hnz, hzz, hout⟩ := ih (tid + 1)
        (Function.update cs (tid - 1)
          ((cs (tid - 1)).enqueueResps ((results.drop s).take (cnt (tid - 1)))))
        (Function.update pend (tid - 1) false) (s + cnt (tid - 1)) (by omega)
        (by rw [hsumval] at hsum; omega)
      refine ⟨csf, pendf, by rw [hstep, heq], ?_, ?_, ?_⟩
      · intro t h1 h2 hne
        rcases Nat.eq_or_lt_of_le h1 with rfl | hlt
        · obtain ⟨o1, o2⟩ := hout (tid - 1) (Or.inl (by omega))
          rw [o1, o2, Function.update_same, Function.update_same]
          rw [show tid - tid = 0 from by omega,
            show s + sumCnt cnt tid 0 = s from rfl]
          exact ⟨rfl, rfl⟩
        · obtain ⟨o1, o2⟩ := hnz t hlt (by omega) hne
          refine ⟨?_, o2⟩
          rw [o1, Function.update_noteq (by omega)]
          have harith : s + cnt (tid - 1) + sumCnt cnt (tid + 1) (t - (tid + 1)) =
              s + sumCnt cnt tid (t - tid) := by
            have ht : t - tid = (t - (tid + 1)) + 1 := by omega
            rw [ht, show sumCnt cnt tid ((t - (tid + 1)) + 1) =
              cnt (tid - 1) + sumCnt cnt (tid + 1) (t - (tid + 1)) from rfl]
            omega
          rw [harith]
      · intro t h1 h2 hzt
        rcases Nat.eq_or_lt_of_le h1 with rfl | hlt
        · exact absurd hzt hz'
        · obtain ⟨o1, o2⟩ := hzz t hlt (by omega) hzt
          rw [o1, o2, Function.update_noteq (by omega), Function.update_noteq (by omega)]
          exact ⟨rfl, rfl⟩
      · intro u hu
        obtain ⟨o1, o2⟩ := hout u (by omega)
        rw [o1, o2, Function.update_noteq (by omega), Function.update_noteq (by omega)]
        exact ⟨rfl, rfl⟩

/-- C8: after one combine round (on a replica synced with its log, with
room in the log and fresh target slots), every per-thread context whose
pending flag was set before the round has been credited — by walking
threads in ascending id order and slicing consecutive responses out of the
result buffer — with exactly as many responses as the operations it
contributed, in the order of those operations, and its pending flag has
been cleared.  `runSeq` threads the data-structure state through the
batched operations in staging order, so the responses credited to thread
`tid` are precisely the responses of its own drained operations. -/
theorem combine_responses {α ρ σ : Type} (dmut : σ → α → σ × ρ)
    (R : Replica α ρ σ) (log : Log α) (k : Nat)
    (hsz : log.size = 2 ^ k) (hGC : 2 * GC_FROM_HEAD ≤ log.size)
    (hht : log.head ≤ log.tail)
    (hsync : log.ltails (R.idx.headD 0 - 1) = log.tail)
    (hroom : log.tail + (pendingConcat R.pending R.contexts 0 1 (R.next - 1)).length ≤
      log.head + (log.size - GC_FROM_HEAD))
    (hin : log.tail + (pendingConcat R.pending R.contexts 0 1 (R.next - 1)).length <
      log.size)
    (hfresh : ∀ j, j < (pendingConcat R.pending R.contexts 0 1 (R.next - 1)).length →
      (log.slog (log.tail + j)).alivef ≠ log.lmasks (R.idx.headD 0 - 1)) :
    ∃ R' log', Replica.combine dmut R log = some (R', log') ∧
      ∀ tid, 1 ≤ tid → tid < R.next → R.pending (tid - 1) = true →
        ((R.contexts (tid - 1)).ops 0).1 ≠ [] →
        R'.contexts (tid - 1) =
            (((R.contexts (tid - 1)).ops 0).2).enqueueResps
              ((runSeq dmut
                  (runSeq dmut R.data (pendingConcat R.pending R.contexts 0 1 (tid - 1))).1
                  (((R.contexts (tid - 1)).ops 0).1)).2) ∧
          ((runSeq dmut
              (runSeq dmut R.data (pendingConcat R.pending R.contexts 0 1 (tid - 1))).1
              (((R.contexts (tid - 1)).ops 0).1)).2).length =
            (((R.contexts (tid - 1)).ops 0).1).length ∧
          R'.pending (tid - 1) = false := by
  obtain ⟨cbuf, cpend, cnonp, cout⟩ := collectGo_spec R.pending 0 R.contexts (R.next - 1) 1
    R.contexts (fun _ => 0) [] (Nat.le_refl 1) (fun t _ _ => rfl)
  have hbuf' : (collectGo R.pending 0 R.contexts (fun _ => 0) [] 1 (R.next - 1)).2.2 =
      pendingConcat R.pending R.contexts 0 1 (R.next - 1) := by
    rw [cbuf]
    rfl
  have hcntspec : ∀ t, 1 ≤ t → t < 1 + (R.next - 1) →
      (collectGo R.pending 0 R.contexts (fun _ => 0) [] 1 (R.next - 1)).2.1 (t - 1) =
        if R.pending (t - 1) then ((R.contexts (t - 1)).ops 0).1.length else 0 := by
    intro t h1 h2
    cases hp : R.pending (t - 1) with
    | true =>
      rw [if_pos rfl]
      exact (cpend t h1 h2 hp).2
    | false =>
      rw [if_neg (by simp)]
      exact (cnonp t h1 h2 hp).2
  have hsumlen : sumCnt
      (collectGo R.pending 0 R.contexts (fun _ => 0) [] 1 (R.next - 1)).2.1 1 (R.next - 1) =
      (pendingConcat R.pending R.contexts 0 1 (R.next - 1)).length :=
    sumCnt_pendingConcat R.pending R.contexts 0 _ (R.next - 1) 1 hcntspec
  obtain ⟨l1, happ, h1sz, h1head, h1tail, h1ctail, h1ltails, h1next, h1lm, h1in, h1out⟩ :=
    append_fresh log (pendingConcat R.pending R.contexts 0 1 (R.next - 1))
      (R.idx.headD 0) k hsz (by omega) hroom (by omega) hfresh
  by_cases hbl : (pendingConcat R.pending R.contexts 0 1 (R.next - 1)).length = 0
  · -- nothing was drained: the round completes and credits nothing
    have hbeq : (l1.ltails (R.idx.headD 0 - 1) == l1.tail) = true := by
      rw [h1ltails, hsync, h1tail, hbl]
      simp
    have hexec : l1.exec (R.idx.headD 0) = .ok (l1, []) := by
      unfold Log.exec Log.execTo
      simp only [hbeq, if_true]
    obtain ⟨csf, pendf, hdist, hnz, hzz, hout⟩ :=
      distributeGo_spec (ρ := ρ) (α := α)
        (collectGo R.pending 0 R.contexts (fun _ => 0) [] 1 (R.next - 1)).2.1
        ((applyDispatches dmut (R.idx.headD 0) R.data ([] : List (α × Nat))).2)
        (R.next - 1) 1
        (collectGo R.pending 0 R.contexts (fun _ => 0) [] 1 (R.next - 1)).1
        R.pending 0 (Nat.le_refl 1)
        (by
          show 0 + _ ≤ (([] : List ρ)).length
          rw [hsumlen, hbl]
          simp)
    refine ⟨Replica.mk R.next R.idx csf pendf
      (applyDispatches dmut (R.idx.headD 0) R.data ([] : List (α × Nat))).1, l1, ?_, ?_⟩
    · unfold Replica.combine
      rw [hbuf']
      simp only [happ, hexec, hdist]
    · intro tid h1 h2 hp hne
      exfalso
      have hlen : ((R.contexts (tid - 1)).ops 0).1.length ≤ 0 := by
        have hle := sumCnt_ge_single
          (collectGo R.pending 0 R.contexts (fun _ => 0) [] 1 (R.next - 1)).2.1
          (R.next - 1) 1 tid h1 (by omega)
        rw [hsumlen, hbl] at hle
        have := (cpend tid h1 (by omega) hp).2
        omega
      exact hne (List.eq_nil_of_length_eq_zero (by omega))
  · -- the batch is non-empty: replay it and distribute the response slices
    have h1sz' : l1.size = 2 ^ k := by
      rw [h1sz, hsz]
    have hwritten : ∀ j (hj : j < (pendingConcat R.pending R.contexts 0 1 (R.next - 1)).length),
        l1.slog (l1.index (log.tail + j)) =
          { operation := some ((pendingConcat R.pending R.contexts 0 1 (R.next - 1)).get ⟨j, hj⟩),
            replica := R.idx.headD 0, alivef := log.lmasks (R.idx.headD 0 - 1) } := by
      intro j hj
      have hj2 : log.tail + j < l1.size := by
        rw [h1sz, hsz]
        rw [hsz] at hin
        omega
      rw [index_eq_self l1 k h1sz' hj2]
      exact h1in j hj
    have halive : ∀ j, j < (pendingConcat R.pending R.contexts 0 1 (R.next - 1)).length →
        (l1.slog (l1.index (log.tail + j))).alivef = l1.lmasks (R.idx.headD 0 - 1) := by
      intro j hj
      rw [hwritten j hj, h1lm]
    have hnw : ∀ j, j < (pendingConcat R.pending R.contexts 0 1 (R.next - 1)).length →
        l1.index (log.tail + j) ≠ l1.size - 1 := by
      intro j hj
      have hj2 : log.tail + j < l1.size := by
        rw [h1sz, hsz]
        rw [hsz] at hin
        omega
      rw [index_eq_self l1 k h1sz' hj2, h1sz]
      rw [hsz] at hin hGC ⊢
      have hGCv : GC_FROM_HEAD = 8192 := rfl
      omega
    have hloop := execLoop_run (R.idx.headD 0 - 1)
      (pendingConcat R.pending R.contexts 0 1 (R.next - 1)).length log.tail l1 halive hnw
    have hbeq : (l1.ltails (R.idx.headD 0 - 1) == l1.tail) = false := by
      rw [h1ltails, hsync, h1tail]
      exact beq_eq_false_iff_ne.2 (by omega)
    have hexec : l1.exec (R.idx.headD 0) =
        .ok ({ (l1 : Log α) with
                ctail := Nat.max l1.ctail l1.tail
                ltails := Function.update l1.ltails (R.idx.headD 0 - 1) l1.tail },
          dsSpec l1 log.tail (pendingConcat R.pending R.contexts 0 1 (R.next - 1)).length) := by
      unfold Log.exec Log.execTo
      rw [hbeq]
      simp only [Bool.false_eq_true, if_false]
      rw [if_neg (by
        rw [h1ltails, hsync, h1head, h1tail]
        omega)]
      have harg1 : l1.ltails (R.idx.headD 0 - 1) = log.tail := by
        rw [h1ltails, hsync]
      have harg2 : l1.tail - log.tail =
          (pendingConcat R.pending R.contexts 0 1 (R.next - 1)).length := by
        rw [h1tail]
        omega
      rw [harg1, harg2, hloop]
    have hds := dsSpec_of_written l1 (R.idx.headD 0) (log.lmasks (R.idx.headD 0 - 1))
      (pendingConcat R.pending R.contexts 0 1 (R.next - 1)) log.tail hwritten
    have happly : applyDispatches dmut (R.idx.headD 0) R.data
        (dsSpec l1 log.tail (pendingConcat R.pending R.contexts 0 1 (R.next - 1)).length) =
        runSeq dmut R.data (pendingConcat R.pending R.contexts 0 1 (R.next - 1)) := by
      rw [hds, applyDispatches_own]
    obtain ⟨csf, pendf, hdist, hnz, hzz, hout⟩ :=
      distributeGo_spec (ρ := ρ) (α := α)
        (collectGo R.pending 0 R.contexts (fun _ => 0) [] 1 (R.next - 1)).2.1
        ((runSeq dmut R.data (pendingConcat R.pending R.contexts 0 1 (R.next - 1))).2)
        (R.next - 1) 1
        (collectGo R.pending 0 R.contexts (fun _ => 0) [] 1 (R.next - 1)).1
        R.pending 0 (Nat.le_refl 1)
        (by
          rw [runSeq_length, hsumlen]
          omega)
    refine ⟨Replica.mk R.next R.idx csf pendf
      (runSeq dmut R.data (pendingConcat R.pending R.contexts 0 1 (R.next - 1))).1,
      Log.mk l1.size l1.head l1.tail (Nat.max l1.ctail l1.tail)
        (Function.update l1.ltails (R.idx.headD 0 - 1) l1.tail) l1.next l1.lmasks l1.slog,
      ?_, ?_⟩
    · unfold Replica.combine
      rw [hbuf']
      simp only [happ, hexec, happly, hdist]
    · intro tid h1 h2 hp hne
      have hrange : tid < 1 + (R.next - 1) := by omega
      have hcnt : (collectGo R.pending 0 R.contexts (fun _ => 0) [] 1 (R.next - 1)).2.1
          (tid - 1) = ((R.contexts (tid - 1)).ops 0).1.length :=
        (cpend tid h1 hrange hp).2
      have hcs1 : (collectGo R.pending 0 R.contexts (fun _ => 0) [] 1 (R.next - 1)).1
          (tid - 1) = ((R.contexts (tid - 1)).ops 0).2 :=
        (cpend tid h1 hrange hp).1
      have hcntne : (collectGo R.pending 0 R.contexts (fun _ => 0) [] 1 (R.next - 1)).2.1
          (tid - 1) ≠ 0 := by
        rw [hcnt]
        intro hc
        exact hne (List.eq_nil_of_length_eq_zero hc)
      obtain ⟨o1, o2⟩ := hnz tid h1 hrange hcntne
      have hoff : sumCnt
          (collectGo R.pending 0 R.contexts (fun _ => 0) [] 1 (R.next - 1)).2.1 1 (tid - 1) =
          (pendingConcat R.pending R.contexts 0 1 (tid - 1)).length :=
        sumCnt_pendingConcat R.pending R.contexts 0 _ (tid - 1) 1
          fun t ht1 ht2 => hcntspec t ht1 (by omega)
      have hsplit1 : pendingConcat R.pending R.contexts 0 1 (R.next - 1) =
          pendingConcat R.pending R.contexts 0 1 (tid - 1) ++
            pendingConcat R.pending R.contexts 0 (1 + (tid - 1))
              ((R.next - 1) - (tid - 1)) := by
        rw [← pendingConcat_split]
        congr 1
        omega
      have htid1 : 1 + (tid - 1) = tid := by omega
      have hfuel2 : (R.next - 1) - (tid - 1) = (R.next - tid - 1) + 1 := by omega
      have hsplit2 : pendingConcat R.pending R.contexts 0 (1 + (tid - 1))
          ((R.next - 1) - (tid - 1)) =
          ((R.contexts (tid - 1)).ops 0).1 ++
            pendingConcat R.pending R.contexts 0 (tid + 1) (R.next - tid - 1) := by
        rw [htid1, hfuel2]
        show (if R.pending (tid - 1) then ((R.contexts (tid - 1)).ops 0).1 else []) ++ _ = _
        rw [hp]
        simp
      have hPCsplit : pendingConcat R.pending R.contexts 0 1 (R.next - 1) =
          pendingConcat R.pending R.contexts 0 1 (tid - 1) ++
            (((R.contexts (tid - 1)).ops 0).1 ++
              pendingConcat R.pending R.contexts 0 (tid + 1) (R.next - tid - 1)) := by
        rw [hsplit1, hsplit2]
      have hrs1 := runSeq_append dmut R.data
        (pendingConcat R.pending R.contexts 0 1 (tid - 1))
        (((R.contexts (tid - 1)).ops 0).1 ++
          pendingConcat R.pending R.contexts 0 (tid + 1) (R.next - tid - 1))
      have hrs2 := runSeq_append dmut
        (runSeq dmut R.data (pendingConcat R.pending R.contexts 0 1 (tid - 1))).1
        (((R.contexts (tid - 1)).ops 0).1)
        (pendingConcat R.pending R.contexts 0 (tid + 1) (R.next - tid - 1))
      have hresults :
          (runSeq dmut R.data (pendingConcat R.pending R.contexts 0 1 (R.next - 1))).2 =
          (runSeq dmut R.data (pendingConcat R.pending R.contexts 0 1 (tid - 1))).2 ++
            ((runSeq dmut
                (runSeq dmut R.data (pendingConcat R.pending R.contexts 0 1 (tid - 1))).1
                (((R.contexts (tid - 1)).ops 0).1)).2 ++
              (runSeq dmut
                (runSeq dmut
                  (runSeq dmut R.data (pendingConcat R.pending R.contexts 0 1 (tid - 1))).1
                  (((R.contexts (tid - 1)).ops 0).1)).1
                (pendingConcat R.pending R.contexts 0 (tid + 1) (R.next - tid - 1))).2) := by
        rw [hPCsplit, hrs1, hrs2]
      have hslice :
          (((runSeq dmut R.data (pendingConcat R.pending R.contexts 0 1 (R.next - 1))).2.drop
              (0 + sumCnt
                (collectGo R.pending 0 R.contexts (fun _ => 0) [] 1 (R.next - 1)).2.1 1
                (tid - 1))).take
            ((collectGo R.pending 0 R.contexts (fun _ => 0) [] 1 (R.next - 1)).2.1
              (tid - 1))) =
          (runSeq dmut
            (runSeq dmut R.data (pendingConcat R.pending R.contexts 0 1 (tid - 1))).1
            (((R.contexts (tid - 1)).ops 0).1)).2 := by
        rw [hresults, Nat.zero_add, hoff]
        rw [List.drop_left'
          (runSeq_length dmut R.data (pendingConcat R.pending R.contexts 0 1 (tid - 1)))]
        rw [hcnt]
        exact List.take_left'
          (runSeq_length dmut _ (((R.contexts (tid - 1)).ops 0).1))
      rw [hcs1, hslice] at o1
      exact ⟨o1, runSeq_length dmut _ _, o2⟩

/-- Witness for C8 at a concrete input: two pending threads with one
operation each on a fresh log. -/
theorem combine_responses_witness :
    tinyLog.size = 2 ^ 14 ∧
      (∀ j, j < (pendingConcat wReplica.pending wReplica.contexts 0 1
          (wReplica.next - 1)).length →
        (tinyLog.slog (tinyLog.tail + j)).alivef ≠
          tinyLog.lmasks (wReplica.idx.headD 0 - 1)) ∧
      ∃ R' log', Replica.combine wDmut wReplica tinyLog = some (R', log') ∧
        ∀ tid, 1 ≤ tid → tid < wReplica.next → wReplica.pending (tid - 1) = true →
          ((wReplica.contexts (tid - 1)).ops 0).1 ≠ [] →
          R'.contexts (tid - 1) =
              (((wReplica.contexts (tid - 1)).ops 0).2).enqueueResps
                ((runSeq wDmut
                    (runSeq wDmut wReplica.data
                      (pendingConcat wReplica.pending wReplica.contexts 0 1 (tid - 1))).1
                    (((wReplica.contexts (tid - 1)).ops 0).1)).2) ∧
            ((runSeq wDmut
                (runSeq wDmut wReplica.data
                  (pendingConcat wReplica.pending wReplica.contexts 0 1 (tid - 1))).1
                (((wReplica.contexts (tid - 1)).ops 0).1)).2).length =
              (((wReplica.contexts (tid - 1)).ops 0).1).length ∧
            R'.pending (tid - 1) = false :=
  ⟨by decide, by decide,
    combine_responses wDmut wReplica tinyLog 14 (by decide) (by decide) (by decide)
      (by decide) (by decide) (by decide) (by decide)⟩

end NodeReplication
